import Mathlib

/-!
Shallow embedding of the CTC prefix-beam-search decoder from
`native_client/ctcdecode` (files `ctc_beam_search_decoder.cpp`,
`path_trie.cpp`, `scorer.h`).

Modelling conventions:

* Machine floating-point values (`float`/`double`) that the decoder keeps in
  the log domain are idealised as `WithBot ℚ`: `⊥` plays the role of
  `-NUM_FLT_INF`, and `⊥ + x = ⊥` matches IEEE `-∞ + finite = -∞`.
* `log_sum_exp`, `get_pruned_log_probs`, `prefix_compare` and
  `prefix_compare_external` live in `decoder_utils.cpp`/`.h`, which is not
  among the sources; `log_sum_exp` is kept abstract (a function parameter of
  the environment), pruned rows are taken as inputs, and the comparators are
  modelled from the spec (see their doc comments).
* The `Scorer` implementation (`scorer.cpp`) and the OpenFst library are not
  among the sources either; they are modelled as oracles: pure functions
  bundled in the `Scorer` and `Fst` structures below, with the fields the
  decoder actually consults (`scorer.h` gives their signatures).
* A `PathTrie` node is represented as a rose tree; a live prefix (a C++
  `PathTrie*`) is identified by its label path from the root.  In the C++
  code the key stored in `children_` always equals the child's `character`
  field (both are set to `new_char` at the only creation sites), so the tree
  stores only the child nodes and child lookup goes through `character`.
* `std::partial_sort`/`std::nth_element` are modelled as a full insertion
  sort by the same comparator; this agrees with the C++ on the sorted prefix
  (`partial_sort`) and on the set moved to the front (`nth_element`) up to
  the order of tied/unspecified elements, which the C++ leaves unspecified.
-/

/-- Log-domain values: finite doubles idealised as rationals, `⊥` standing
for `-NUM_FLT_INF`. -/
abbrev LogProb := WithBot ℚ

/-- `PathTrie::ROOT_` (always `-1` in the source constructor). -/
def ROOT_ : Int := -1

/-- The scalar fields of one `PathTrie` node.  Default values are those set
by the `PathTrie::PathTrie()` constructor. -/
structure NodeData where
  log_prob_b_prev : LogProb := ⊥
  log_prob_nb_prev : LogProb := ⊥
  log_prob_b_cur : LogProb := ⊥
  log_prob_nb_cur : LogProb := ⊥
  log_prob_c : LogProb := ⊥
  score : LogProb := ⊥
  character : Int := ROOT_
  timestep : Nat := 0
  exists_ : Bool := true
  has_dictionary : Bool := false
  dictionary_state : Nat := 0
deriving DecidableEq

/-- A `PathTrie` node together with its (ordered) children. -/
inductive PathTrie where
| mk (data : NodeData) (children_ : List PathTrie)

def PathTrie.data : PathTrie → NodeData
| .mk d _ => d

def PathTrie.children_ : PathTrie → List PathTrie
| .mk _ cs => cs

/-- First child whose `character` equals `c` (the linear scan over
`children_` in the source). -/
def findChild : List PathTrie → Int → Option PathTrie
| [], _ => none
| ch :: rest, c => if ch.data.character = c then some ch else findChild rest c

/-- Apply `f` to the first child whose `character` equals `c`. -/
def updateChild (c : Int) (f : PathTrie → PathTrie) : List PathTrie → List PathTrie
| [] => []
| ch :: rest => if ch.data.character = c then f ch :: rest else ch :: updateChild c f rest

/-- Resolve a label path (the stand-in for a `PathTrie*`) to its subtree. -/
def subtreeAt : PathTrie → List Int → Option PathTrie
| t, [] => some t
| .mk _ cs, c :: p =>
  match findChild cs c with
  | some ch => subtreeAt ch p
  | none => none

/-- The node data a label path points at. -/
def dataAt (t : PathTrie) (p : List Int) : Option NodeData :=
  (subtreeAt t p).map PathTrie.data

/-- `score` field read through a path (dangling paths read `⊥`; the decoder
never dereferences a dangling pointer). -/
def scoreAt (t : PathTrie) (p : List Int) : LogProb :=
  ((dataAt t p).map (·.score)).getD ⊥

/-- The labels of the children of the node a path points at. -/
def childCharsAt (t : PathTrie) (p : List Int) : Option (List Int) :=
  (subtreeAt t p).map (fun t' => t'.children_.map (·.data.character))

/-- `exists_` flag read through a path. -/
def existsAt (t : PathTrie) (p : List Int) : Option Bool :=
  (dataAt t p).map (·.exists_)

/-- Rewrite only the scalar data of the node a path points at. -/
def updateDataAt : PathTrie → List Int → (NodeData → NodeData) → PathTrie
| .mk d cs, [], g => .mk (g d) cs
| .mk d cs, c :: p, g => .mk d (updateChild c (fun ch => updateDataAt ch p g) cs)
termination_by _ p _ => p.length

/-- Oracle view of the lexicon FST and its sorted matcher (OpenFst, external):
`find s l` is `matcher.SetState(s); matcher.Find(l)` returning
`matcher.Value().nextstate` on a hit, and `is_final s` decides
`fst.Final(s) != TropicalWeight::Zero()`. -/
structure Fst where
  start : Nat
  is_final : Nat → Bool
  find : Nat → Int → Option Nat

/-- What `get_path_trie` does to an already existing child for `new_char`
(`path_trie.cpp` lines 42-61): bump `log_prob_c`/`timestep` when the new
emission is better and the child is still a leaf, then reactivate a
tombstoned child, zeroing its four CTC log-probabilities. -/
def foundChildUpd (new_timestep : Nat) (cur_log_prob_c : LogProb) : PathTrie → PathTrie
| .mk cd ccs =>
  let cd1 := if cd.log_prob_c < cur_log_prob_c ∧ ccs.isEmpty = true
    then { cd with log_prob_c := cur_log_prob_c, timestep := new_timestep }
    else cd
  let cd2 := if cd1.exists_ = false
    then { cd1 with
            exists_ := true,
            log_prob_b_prev := ⊥, log_prob_nb_prev := ⊥,
            log_prob_b_cur := ⊥, log_prob_nb_cur := ⊥ }
    else cd1
  .mk cd2 ccs

/-- `PathTrie::get_path_trie(new_char, new_timestep, cur_log_prob_c, reset)`,
acting on the node it is invoked on (`path_trie.cpp` lines 38-112).  The
`Bool` result records whether a non-null child was returned; on success the
child is the entry with `character = new_char` of the returned node. -/
def get_path_trie (fstm : Fst) (t : PathTrie) (new_char : Int) (new_timestep : Nat)
    (cur_log_prob_c : LogProb) (reset : Bool) : PathTrie × Bool :=
  match t with
  | .mk d cs =>
    match findChild cs new_char with
    | some _ =>
      (.mk d (updateChild new_char (foundChildUpd new_timestep cur_log_prob_c) cs), true)
    | none =>
      if d.has_dictionary then
        match fstm.find d.dictionary_state (new_char + 1) with
        | none =>
          let d' := if fstm.is_final d.dictionary_state ∧ reset
            then { d with dictionary_state := fstm.start } else d
          (.mk d' cs, false)
        | some nextstate =>
          let st := if fstm.is_final nextstate ∧ reset then fstm.start else nextstate
          let newNode : PathTrie := .mk
            { character := new_char, timestep := new_timestep,
              log_prob_c := cur_log_prob_c,
              has_dictionary := true, dictionary_state := st } []
          (.mk d (cs ++ [newNode]), true)
      else
        let newNode : PathTrie := .mk
          { character := new_char, timestep := new_timestep,
            log_prob_c := cur_log_prob_c } []
        (.mk d (cs ++ [newNode]), true)

/-- Apply `f` to the first child with `character = c`, threading the `Bool`
result out (`false` when no such child exists). -/
def updateChildP (c : Int) (f : PathTrie → PathTrie × Bool) :
    List PathTrie → List PathTrie × Bool
| [] => ([], false)
| ch :: rest =>
  if ch.data.character = c then
    let r := f ch
    (r.1 :: rest, r.2)
  else
    let r := updateChildP c f rest
    (ch :: r.1, r.2)

/-- `prefix->get_path_trie(...)` where the receiver is the node at path `p`
of the trie rooted at `t`. -/
def get_path_trie_at (fstm : Fst) : PathTrie → List Int → Int → Nat → LogProb → Bool →
    PathTrie × Bool
| t, [], c, ts, lpc, rs => get_path_trie fstm t c ts lpc rs
| .mk d cs, l :: p, c, ts, lpc, rs =>
  let r := updateChildP l (fun ch => get_path_trie_at fstm ch p c ts lpc rs) cs
  (.mk d r.1, r.2)
termination_by _ p _ _ _ _ => p.length

/-- Frame commit on one node's data (`PathTrie::iterate_to_vec` lines
178-184): shift `_cur` into `_prev`, zero `_cur`, refresh `score`. -/
def commitData (lse : LogProb → LogProb → LogProb) (d : NodeData) : NodeData :=
  { d with
    log_prob_b_prev := d.log_prob_b_cur,
    log_prob_nb_prev := d.log_prob_nb_cur,
    log_prob_b_cur := ⊥,
    log_prob_nb_cur := ⊥,
    score := lse d.log_prob_b_cur d.log_prob_nb_cur }

mutual
/-- `PathTrie::iterate_to_vec(output)`: pre-order traversal that commits the
frame at every `exists_` node and collects it (here: collects its path;
`pre` is the path of the node the traversal is standing on). -/
def iterate_to_vec (lse : LogProb → LogProb → LogProb) :
    PathTrie → List Int → PathTrie × List (List Int)
| .mk d cs, pre =>
  let r := iterChildren lse cs pre
  if d.exists_ then (.mk (commitData lse d) r.1, pre :: r.2) else (.mk d r.1, r.2)

/-- The `for (auto child : children_)` loop of `iterate_to_vec`. -/
def iterChildren (lse : LogProb → LogProb → LogProb) :
    List PathTrie → List Int → List PathTrie × List (List Int)
| [], _ => ([], [])
| ch :: rest, pre =>
  let r1 := iterate_to_vec lse ch (pre ++ [ch.data.character])
  let r2 := iterChildren lse rest pre
  (r1.1 :: r2.1, r1.2 ++ r2.2)
end

mutual
/-- `PathTrie::remove()` invoked on the node at path `p`: mark it dead, and
detach-and-delete it when it is a leaf, cascading the deletion to ancestors
that are thereby left as childless tombstones (`path_trie.cpp` 192-209). -/
def remove_at : PathTrie → List Int → PathTrie
| .mk d cs, [] => .mk { d with exists_ := false } cs
| .mk d cs, c :: p => .mk d (removeIn cs c p)
termination_by _ p => (p.length, 0)

/-- Descend to the child with `character = c`, remove at `p` below it, and
erase the child here exactly when it has become a childless tombstone (this
is when the C++ cascade `delete`s it and erases it from `parent->children_`). -/
def removeIn : List PathTrie → Int → List Int → List PathTrie
| [], _, _ => []
| ch :: rest, c, p =>
  if ch.data.character = c then
    if (remove_at ch p).children_.isEmpty = true ∧ (remove_at ch p).data.exists_ = false
    then rest
    else remove_at ch p :: rest
  else ch :: removeIn rest c p
termination_by cs _ p => (p.length, cs.length + 1)
end

/-- The chain of nodes a path passes through, root first (the stack of the
recursive walk in `PathTrie::get_path_vec`). -/
def pathNodes : PathTrie → List Int → List NodeData
| .mk d _, [] => [d]
| .mk d cs, c :: p =>
  d :: (match findChild cs c with
        | some ch => pathNodes ch p
        | none => [])

/-- `PathTrie::get_path_vec(output, timesteps)` for the node at path `p`:
 labels and timesteps along the root-to-node chain, skipping `ROOT_`. -/
def get_path_vec (t : PathTrie) (p : List Int) : List Int × List Nat :=
  let ds := (pathNodes t p).filter (fun d => d.character ≠ ROOT_)
  (ds.map (·.character), ds.map (·.timestep))

/-- Oracle view of the external `Scorer` (`scorer.h`; the implementation in
`scorer.cpp` is not among the sources).  Scored units are strings, prefixes
are passed as label paths (the stand-in for `PathTrie*`).  Per the spec the
scorer is shared and read-only, so its queries are pure functions. -/
structure Scorer where
  alpha : ℚ
  beta : ℚ
  max_order : Nat
  is_utf8_mode : Bool
  is_scoring_boundary : List Int → Int → Bool
  make_ngram : List Int → List String
  get_log_cond_prob : List String → Bool → ℚ
  split_labels_into_scored_units : List Int → List String
  get_sent_log_prob : List String → ℚ

/-- `OOV_SCORE` from `scorer.h`. -/
def OOV_SCORE : ℚ := -1000

/-- The external collaborators the decoder is parameterised by: the abstract
`log_sum_exp` (decoder_utils, not in the sources), the lexicon FST, and the
optional external scorer. -/
structure Env where
  lse : LogProb → LogProb → LogProb
  fstm : Fst
  scorer : Option Scorer

/-- One frame of input as `DecoderState::next` consumes it: `pruned` is the
`(index, log-prob)` list produced by `get_pruned_log_probs` (decoder_utils,
not in the sources) and `logBlank` is `std::log(prob[blank_id])`. -/
structure FrameInput where
  pruned : List (Nat × LogProb)
  logBlank : LogProb

/-- The fields of `DecoderState` the decoding loop uses (header not among
the sources; fields read off their uses in `ctc_beam_search_decoder.cpp`). -/
structure DecoderState where
  abs_time_step : Nat
  space_id : Nat
  blank_id : Nat
  beam_size : Nat
  prefix_root : PathTrie
  prefixes : List (List Int)

/-- `DecoderState::init`: root with `score = log_prob_b_prev = 0`, seeded
beam `[root]`; with a scorer, the lexicon FST is attached to the root
(`set_dictionary` puts it in state `Start()`). -/
def DecoderState.init (env : Env) (blank_id space_id beam_size : Nat) : DecoderState :=
  let hasDict := env.scorer.isSome
  let root : PathTrie := .mk
    { score := 0, log_prob_b_prev := 0,
      has_dictionary := hasDict,
      dictionary_state := if hasDict then env.fstm.start else 0 } []
  { abs_time_step := 0, space_id := space_id, blank_id := blank_id,
    beam_size := beam_size, prefix_root := root, prefixes := [[]] }

/-- Insert `a` into `l` keeping every element `b` with `comp b a = true`
before it (the insertion step of the comparison sort used to model
`std::partial_sort`/`std::nth_element`). -/
def insertComp (comp : List Int → List Int → Bool) (a : List Int) :
    List (List Int) → List (List Int)
| [] => [a]
| b :: l => if comp b a then b :: insertComp comp a l else a :: b :: l

/-- Comparison sort by `comp` ("comes strictly before"); adjacent results
`a` before `b` satisfy `comp b a = false`, the `std::partial_sort`
postcondition on its sorted prefix. -/
def sortComp (comp : List Int → List Int → Bool) : List (List Int) → List (List Int)
| [] => []
| b :: l => insertComp comp b (sortComp comp l)

/-- Modelled from the spec: `prefix_compare` is defined in
`decoder_utils.cpp`, which is not among the sources; the spec orders beam
entries by `score` descending ("partial-sort the beam by `score`
descending"). -/
def prefix_compare (root : PathTrie) (x y : List Int) : Bool :=
  decide (scoreAt root y < scoreAt root x)

/-- The blank accumulation (line 88-89): `log_prob_b_cur ⊕= log_prob_c + score`. -/
def blankUpd (lse : LogProb → LogProb → LogProb) (log_prob_c : LogProb)
    (d : NodeData) : NodeData :=
  { d with log_prob_b_cur := lse d.log_prob_b_cur (log_prob_c + d.score) }

/-- The repeated-character accumulation (lines 95-96):
`log_prob_nb_cur ⊕= log_prob_c + log_prob_nb_prev`. -/
def repeatUpd (lse : LogProb → LogProb → LogProb) (log_prob_c : LogProb)
    (d : NodeData) : NodeData :=
  { d with log_prob_nb_cur := lse d.log_prob_nb_cur (log_prob_c + d.log_prob_nb_prev) }

/-- The accumulation into the extended child (lines 133-134):
`log_prob_nb_cur ⊕= log_p`. -/
def childAccum (lse : LogProb → LogProb → LogProb) (log_p : LogProb)
    (d : NodeData) : NodeData :=
  { d with log_prob_nb_cur := lse d.log_prob_nb_cur log_p }

/-- The step log-probability `log_p` of an extension of a parent with data
`d` (path `p`) by label `c`, as computed by lines 103-131: the
blank-separated repeat / fresh-label / suppressed cases, plus the language
model weight when the extension crosses a scoring boundary. -/
def extLogP (env : Env) (c : Nat) (lpc : LogProb) (d : NodeData) (p : List Int) : LogProb :=
  let log_p0 : LogProb :=
    if (c : Int) = d.character ∧ ⊥ < d.log_prob_b_prev then lpc + d.log_prob_b_prev
    else if (c : Int) ≠ d.character then lpc + d.score
    else ⊥
  match env.scorer with
  | none => log_p0
  | some scr =>
    let target := if scr.is_utf8_mode then p ++ [(c : Int)] else p
    if scr.is_scoring_boundary target (c : Int) then
      let ngram := scr.make_ngram target
      let bos := decide (ngram.length < scr.max_order)
      log_p0 + ((scr.get_log_cond_prob ngram bos * scr.alpha : ℚ) : LogProb)
            + ((scr.beta : ℚ) : LogProb)
    else log_p0

/-- The body of the innermost loop of `DecoderState::next` (lines 86-135),
processing pruned label `c` for the prefix at path `p`: the part from the
`get_path_trie` call on (lines 99-135). -/
def extensionStep (env : Env) (abs_t : Nat) (c : Nat) (log_prob_c : LogProb)
    (t : PathTrie) (p : List Int) : PathTrie :=
  let r := get_path_trie_at env.fstm t p (c : Int) abs_t log_prob_c true
  if r.2 then
    let q := p ++ [(c : Int)]
    let pd := (dataAt r.1 p).getD {}
    let log_p0 : LogProb :=
      if (c : Int) = pd.character ∧ ⊥ < pd.log_prob_b_prev then
        log_prob_c + pd.log_prob_b_prev
      else if (c : Int) ≠ pd.character then
        log_prob_c + pd.score
      else ⊥
    let log_p : LogProb :=
      match env.scorer with
      | none => log_p0
      | some scr =>
        let target := if scr.is_utf8_mode then q else p
        if scr.is_scoring_boundary target (c : Int) then
          let ngram := scr.make_ngram target
          let bos := decide (ngram.length < scr.max_order)
          log_p0 + ((scr.get_log_cond_prob ngram bos * scr.alpha : ℚ) : LogProb)
                + ((scr.beta : ℚ) : LogProb)
        else log_p0
    updateDataAt r.1 q (childAccum env.lse log_p)
  else r.1

/-- The whole innermost loop body (lines 86-135): blank accumulation,
repeated-character accumulation, then the extension step. -/
def prefixBody (env : Env) (blank_id abs_t : Nat) (c : Nat) (log_prob_c : LogProb)
    (t : PathTrie) (p : List Int) : PathTrie :=
  if c = blank_id then
    updateDataAt t p (blankUpd env.lse log_prob_c)
  else
    let t1 := if (c : Int) = ((dataAt t p).getD {}).character then
        updateDataAt t p (repeatUpd env.lse log_prob_c)
      else t
    extensionStep env abs_t c log_prob_c t1 p

/-- The loop over beam prefixes for one pruned label (lines 80-136),
including the full-beam early `break` (lines 82-84). -/
def loopPrefixes (env : Env) (blank_id abs_t : Nat) (c : Nat) (log_prob_c : LogProb)
    (full_beam : Bool) (min_cutoff : LogProb) : PathTrie → List (List Int) → PathTrie
| t, [] => t
| t, p :: rest =>
  if full_beam = true ∧ log_prob_c + scoreAt t p < min_cutoff then t
  else loopPrefixes env blank_id abs_t c log_prob_c full_beam min_cutoff
    (prefixBody env blank_id abs_t c log_prob_c t p) rest

/-- Beam as the prefix loop sees it: partially sorted by `prefix_compare`
when a scorer is attached (line 63), untouched otherwise. -/
def sorted_prefixes (env : Env) (s : DecoderState) : List (List Int) :=
  if env.scorer.isSome then sortComp (prefix_compare s.prefix_root) s.prefixes
  else s.prefixes

/-- `num_prefixes = std::min(prefixes_.size(), beam_size_)` (line 62). -/
def num_prefixes (s : DecoderState) : Nat := min s.prefixes.length s.beam_size

/-- `min_cutoff` of one frame (lines 59, 68-69): `-NUM_FLT_INF` without a
scorer, else `prefixes_[num_prefixes - 1]->score + log(prob[blank_id]) -
max(0.0, beta)` over the partially sorted beam. -/
def min_cutoff_val (env : Env) (s : DecoderState) (fi : FrameInput) : LogProb :=
  match env.scorer with
  | some scr =>
    scoreAt s.prefix_root ((sorted_prefixes env s).getD (num_prefixes s - 1) [])
      + fi.logBlank + (((-(max 0 scr.beta)) : ℚ) : LogProb)
  | none => ⊥

/-- `full_beam` of one frame (lines 60, 70): false without a scorer, else
`num_prefixes == beam_size`. -/
def full_beam_val (env : Env) (s : DecoderState) : Bool :=
  env.scorer.isSome && decide (num_prefixes s = s.beam_size)

/-- The label × prefix double loop of one frame (lines 76-137), applied to
the decoder's root: the outer fold is over the pruned labels, the inner
`loopPrefixes` walks the top `beam_size` slice of the (partially sorted)
beam. -/
def frameLoops (env : Env) (s : DecoderState) (fi : FrameInput) : PathTrie :=
  fi.pruned.foldl
    (fun t cl => loopPrefixes env s.blank_id s.abs_time_step cl.1 cl.2
      (full_beam_val env s) (min_cutoff_val env s fi) t
      ((sorted_prefixes env s).take s.beam_size))
    s.prefix_root

/-- One iteration of the time loop of `DecoderState::next` (lines 56-156):
cutoff setup, the label × prefix double loop, frame commit by
`iterate_to_vec`, and beam pruning with `remove()` on the dropped tail. -/
def frameStep (env : Env) (s : DecoderState) (fi : FrameInput) : DecoderState :=
  let root1 := frameLoops env s fi
  let r := iterate_to_vec env.lse root1 []
  let pruned :=
    if s.beam_size < r.2.length then
      let sorted := sortComp (prefix_compare r.1) r.2
      ((sorted.drop s.beam_size).foldl remove_at r.1, sorted.take s.beam_size)
    else (r.1, r.2)
  { s with abs_time_step := s.abs_time_step + 1,
           prefix_root := pruned.1, prefixes := pruned.2 }

/-- `DecoderState::next(probs, time_dim, class_dim)`: fold the frame step
over the frames of the chunk. -/
def next (env : Env) (s : DecoderState) (frames : List FrameInput) : DecoderState :=
  frames.foldl (frameStep env) s

/-- The emitted `Output` record; `confidence = -approx_ctc` with IEEE
negation mapping `-∞` to `+∞`, hence the `WithTop` codomain. -/
structure Output where
  tokens : List Int
  timesteps : List Nat
  confidence : WithTop ℚ
deriving DecidableEq

/-- IEEE negation of a log-domain value: finite to finite, `-∞` to `+∞`. -/
def negLP (x : LogProb) : WithTop ℚ :=
  x.recBotCoe ⊤ (fun q => ((-q : ℚ) : WithTop ℚ))

/-- Read the per-prefix score map (`std::unordered_map<const PathTrie*,
float>` keyed here by label paths); `operator[]` default-initialises
missing keys to `0.0`. -/
def getScore : List (List Int × LogProb) → List Int → LogProb
| [], _ => 0
| (q, w) :: m, p => if q = p then w else getScore m p

/-- Write through `operator[]`: update the entry if present, insert
otherwise. -/
def setScore : List (List Int × LogProb) → List Int → LogProb → List (List Int × LogProb)
| [], p, v => [(p, v)]
| (q, w) :: m, p, v => if q = p then (q, v) :: m else (q, w) :: setScore m p v

/-- Sum of the timesteps along a prefix (used by the spec's tie-break for
the final ordering). -/
def timestepSum (root : PathTrie) (p : List Int) : Nat :=
  (get_path_vec root p).2.sum

/-- Modelled from the spec: `prefix_compare_external` is defined in
`decoder_utils.cpp`, which is not among the sources; spec 4.5 sorts "by the
rescored score, descending, tie-break by deeper (longer-path) prefix first,
then lower `timestep` sum". -/
def prefix_compare_external (root : PathTrie) (scores : List (List Int × LogProb))
    (x y : List Int) : Bool :=
  let sx := getScore scores x
  let sy := getScore scores y
  if sx = sy then
    if x.length = y.length then decide (timestepSum root x < timestepSum root y)
    else decide (y.length < x.length)
  else decide (sy < sx)

/-- One step of the rescoring pass of `DecoderState::decode` (lines
171-182): an empty prefix gets `OOV_SCORE`; a prefix whose last step is not
a scoring boundary gets the tail ngram score `alpha·get_log_cond_prob(ngram,
bos) + beta` added; any other prefix is left alone. -/
def rescoreStep (scr : Scorer) (m : List (List Int × LogProb)) (p : List Int) :
    List (List Int × LogProb) :=
  if p.isEmpty then setScore m p ((OOV_SCORE : ℚ) : LogProb)
  else if scr.is_scoring_boundary p.dropLast (p.getLastD ROOT_) = false then
    let ngram := scr.make_ngram p
    let bos := decide (ngram.length < scr.max_order)
    let sc := scr.get_log_cond_prob ngram bos * scr.alpha + scr.beta
    setScore m p (getScore m p + ((sc : ℚ) : LogProb))
  else m

/-- The whole rescoring pass: fold the per-prefix step over the first
`min(beam_size, |beam|)` prefixes. -/
def rescore (scr : Scorer) (beam_size : Nat)
    (prefixes_copy : List (List Int)) (scores0 : List (List Int × LogProb)) :
    List (List Int × LogProb) :=
  (prefixes_copy.take beam_size).foldl (rescoreStep scr) scores0

/-- `DecoderState::decode()` (lines 159-217): snapshot the beam, rescore
unfinished words, partial-sort by the external comparator, emit the top
(fixed `top_paths = 1`) outputs with the approximate CTC confidence. -/
def decode (env : Env) (s : DecoderState) : List Output :=
  let prefixes_copy := s.prefixes
  let scores0 := prefixes_copy.map (fun p => (p, scoreAt s.prefix_root p))
  let scores :=
    match env.scorer with
    | none => scores0
    | some scr => rescore scr s.beam_size prefixes_copy scores0
  let np := min prefixes_copy.length s.beam_size
  let sorted := sortComp (prefix_compare_external s.prefix_root scores) prefixes_copy
  let num_returned := min np 1
  (sorted.take num_returned).map (fun p =>
    let tv := get_path_vec s.prefix_root p
    let approx0 := getScore scores p
    let approx :=
      match env.scorer with
      | none => approx0
      | some scr =>
        let words := scr.split_labels_into_scored_units tv.1
        approx0 + (((-((words.length : ℚ) * scr.beta)) : ℚ) : LogProb)
               + (((-(scr.get_sent_log_prob words * scr.alpha)) : ℚ) : LogProb)
    { tokens := tv.1, timesteps := tv.2, confidence := negLP approx })

/-- Calls a client can make on a live `DecoderState`. -/
inductive DecOp where
| nextOp (frames : List FrameInput)
| decodeOp

/-- `true` exactly on `nextOp` calls. -/
def DecOp.isNext : DecOp → Bool
| .nextOp _ => true
| .decodeOp => false

/-- Run a sequence of API calls against a decoder state, collecting the
output list of every `decode()` call. -/
def runOps (env : Env) : DecoderState → List DecOp → DecoderState × List (List Output)
| s, [] => (s, [])
| s, .nextOp frames :: ops => runOps env (next env s frames) ops
| s, .decodeOp :: ops =>
  let r := runOps env s ops
  (r.1, decode env s :: r.2)

mutual
/-- Apply `f` to the data of every node of a tree (an auxiliary view used to
describe `iterate_to_vec`, which is exactly a data-map by the frame commit). -/
def mapDataT (f : NodeData → NodeData) : PathTrie → PathTrie
| .mk d cs => .mk (f d) (mapDataL f cs)

/-- `mapDataT` on a list of children. -/
def mapDataL (f : NodeData → NodeData) : List PathTrie → List PathTrie
| [] => []
| ch :: rest => mapDataT f ch :: mapDataL f rest
end

/-- The per-node effect of a frame commit: live nodes are committed, dead
(`exists_ = false`) nodes are left alone. -/
def commitIfLive (lse : LogProb → LogProb → LogProb) (d : NodeData) : NodeData :=
  if d.exists_ = true then commitData lse d else d

/-- Timestep invariant of the trie: every node's `timestep` is at most `T`
and no node's `timestep` exceeds any of its children's. -/
inductive InvT : Nat → PathTrie → Prop where
| mk : ∀ (T : Nat) (d : NodeData) (cs : List PathTrie),
    d.timestep ≤ T →
    (∀ ch ∈ cs, d.timestep ≤ ch.data.timestep) →
    (∀ ch ∈ cs, InvT T ch) →
    InvT T (.mk d cs)

/-- Decoder states reachable through the public API: `init` followed by any
number of `next` frames (`decode` is `const` and returns no state). -/
inductive Reachable (env : Env) : DecoderState → Prop where
| init : ∀ blank_id space_id beam_size,
    Reachable env (DecoderState.init env blank_id space_id beam_size)
| step : ∀ s fi, Reachable env s → Reachable env (frameStep env s fi)

/-! ### Concrete test fixtures (used by the witness theorems) -/

/-- A concrete stand-in for the abstract `log_sum_exp` oracle. -/
def lse0 : LogProb → LogProb → LogProb := fun a b => max a b

/-- A concrete two-state lexicon FST: state `0` accepts arc label `1`
(label `0 + 1`) into state `1`; state `2` is the only final state. -/
def fst0 : Fst :=
  { start := 0,
    is_final := fun s => decide (s = 2),
    find := fun s l => if s = 0 ∧ l = 1 then some 1 else none }

/-- A concrete scorer oracle. -/
def scorer0 : Scorer :=
  { alpha := 1, beta := 1, max_order := 2, is_utf8_mode := true,
    is_scoring_boundary := fun _ _ => false,
    make_ngram := fun _ => ["u"],
    get_log_cond_prob := fun _ _ => -2,
    split_labels_into_scored_units := fun _ => ["u"],
    get_sent_log_prob := fun _ => -2 }

/-- Environment without a scorer. -/
def env0 : Env := { lse := lse0, fstm := fst0, scorer := none }

/-- Environment with a scorer attached. -/
def env1 : Env := { lse := lse0, fstm := fst0, scorer := some scorer0 }

/-- Root-style node data (as set up by `DecoderState::init`). -/
def nodeR : NodeData := { score := 0, log_prob_b_prev := 0 }

/-- A live non-root node for label `0`. -/
def nodeA : NodeData :=
  { character := 0, timestep := 0,
    score := ((-1 : ℚ) : LogProb), log_prob_b_prev := ((-1 : ℚ) : LogProb),
    log_prob_nb_prev := ((-2 : ℚ) : LogProb), log_prob_c := ((-1 : ℚ) : LogProb) }

/-- A dictionary-bearing node sitting in FST state `0` with no children. -/
def nodeD : NodeData :=
  { score := 0, log_prob_b_prev := 0, has_dictionary := true, dictionary_state := 0 }

/-- A small concrete trie: root with one child for label `0`. -/
def t0 : PathTrie := .mk nodeR [.mk nodeA []]

/-- A concrete decoder state over `t0`. -/
def st0 : DecoderState :=
  { abs_time_step := 1, space_id := 1, blank_id := 2, beam_size := 2,
    prefix_root := t0, prefixes := [[], [0]] }

/-- A concrete frame input. -/
def fi0 : FrameInput :=
  { pruned := [(2, ((-1 : ℚ) : LogProb)), (0, ((-1 : ℚ) : LogProb))],
    logBlank := ((-1 : ℚ) : LogProb) }

/-! ### Basic lookup / update lemmas -/

theorem subtreeAt_nil (t : PathTrie) : subtreeAt t [] = some t := by
  cases t; rfl

theorem dataAt_nil (t : PathTrie) : dataAt t [] = some t.data := by
  cases t; rfl

theorem dataAt_cons (d : NodeData) (cs : List PathTrie) (c : Int) (p : List Int) :
    dataAt (.mk d cs) (c :: p) = (findChild cs c).bind (fun ch => dataAt ch p) := by
  simp only [dataAt, subtreeAt]
  cases findChild cs c <;> simp

theorem findChild_updateChild (c c' : Int) (f : PathTrie → PathTrie)
    (hf : ∀ ch, (f ch).data.character = ch.data.character) (cs : List PathTrie) :
    findChild (updateChild c f cs) c' =
      if c' = c then (findChild cs c).map f else findChild cs c' := by
  induction cs with
  | nil => simp [updateChild, findChild]
  | cons ch rest ih =>
    by_cases h : ch.data.character = c
    · simp only [updateChild, if_pos h, findChild, hf ch, h]
      by_cases h' : c' = c
      · subst h'; simp [findChild, h]
      · have h2 : ¬ c = c' := fun hx => h' hx.symm
        simp [findChild, h, h', h2]
    · simp only [updateChild, if_neg h, findChild]
      by_cases h' : ch.data.character = c'
      · have : ¬ c' = c := by rintro rfl; exact h h'
        simp [h', this]
      · simp [h', ih]

theorem updateDataAt_data (t : PathTrie) (p : List Int) (g : NodeData → NodeData) :
    (updateDataAt t p g).data = if p = [] then g t.data else t.data := by
  cases t with
  | mk d cs => cases p <;> simp [updateDataAt, PathTrie.data]

theorem updateDataAt_children_ne_nil (t : PathTrie) (c : Int) (p : List Int)
    (g : NodeData → NodeData) :
    (updateDataAt t (c :: p) g).children_ =
      updateChild c (fun ch => updateDataAt ch p g) t.children_ := by
  cases t; simp [updateDataAt, PathTrie.children_]

theorem updateDataAt_character (t : PathTrie) (p : List Int) (g : NodeData → NodeData)
    (hg : ∀ d, (g d).character = d.character) :
    (updateDataAt t p g).data.character = t.data.character := by
  rw [updateDataAt_data]
  split <;> simp [hg]

/-- `updateDataAt` rewrites exactly the data of the node at `p` (provided the
update does not move the node's key, i.e. preserves `character`). -/
theorem dataAt_updateDataAt (g : NodeData → NodeData)
    (hg : ∀ d, (g d).character = d.character) :
    ∀ (p : List Int) (t : PathTrie) (q : List Int),
    dataAt (updateDataAt t p g) q = if q = p then (dataAt t p).map g else dataAt t q := by
  intro p
  induction p with
  | nil =>
    intro t q
    cases t with
    | mk d cs =>
      cases q with
      | nil => simp [updateDataAt, dataAt_nil, PathTrie.data]
      | cons c q' => simp [updateDataAt, dataAt_cons]
  | cons c p' ih =>
    intro t q
    cases t with
    | mk d cs =>
      cases q with
      | nil => simp [updateDataAt, dataAt_nil, PathTrie.data]
      | cons c' q' =>
        have hchar : ∀ ch : PathTrie, (updateDataAt ch p' g).data.character = ch.data.character :=
          fun ch => updateDataAt_character ch p' g hg
        simp only [updateDataAt, dataAt_cons]
        rw [findChild_updateChild c c' _ hchar cs]
        by_cases hc : c' = c
        · subst hc
          cases hfc : findChild cs c' with
          | none => simp
          | some ch =>
            by_cases hq : q' = p'
            · simp [hq, ih ch p']
            · simp [hq, ih ch q']
        · simp [hc]

theorem updateChild_map_character (c : Int) (f : PathTrie → PathTrie)
    (hf : ∀ ch, (f ch).data.character = ch.data.character) (cs : List PathTrie) :
    (updateChild c f cs).map (fun ch => ch.data.character) =
      cs.map (fun ch => ch.data.character) := by
  induction cs with
  | nil => rfl
  | cons ch rest ih =>
    by_cases h : ch.data.character = c
    · simp [updateChild, h, hf ch]
    · simp [updateChild, h, ih]

/-- `updateDataAt` never changes the shape of the tree nor any child key. -/
theorem childCharsAt_updateDataAt (g : NodeData → NodeData)
    (hg : ∀ d, (g d).character = d.character) :
    ∀ (p : List Int) (t : PathTrie) (q : List Int),
    childCharsAt (updateDataAt t p g) q = childCharsAt t q := by
  intro p
  induction p with
  | nil =>
    intro t q
    cases t with
    | mk d cs =>
      cases q with
      | nil => simp [updateDataAt, childCharsAt, subtreeAt, PathTrie.children_]
      | cons c q' => simp [updateDataAt, childCharsAt, subtreeAt]
  | cons c p' ih =>
    intro t q
    have hchar : ∀ ch : PathTrie, (updateDataAt ch p' g).data.character = ch.data.character :=
      fun ch => updateDataAt_character ch p' g hg
    cases t with
    | mk d cs =>
      cases q with
      | nil =>
        simp only [childCharsAt, subtreeAt_nil, Option.map_some, updateDataAt,
          PathTrie.children_]
        exact congrArg some (updateChild_map_character c _ hchar cs)
      | cons c' q' =>
        simp only [childCharsAt, subtreeAt, updateDataAt]
        rw [findChild_updateChild c c' _ hchar cs]
        by_cases hc : c' = c
        · subst hc
          cases hfc : findChild cs c' with
          | none => simp
          | some ch =>
            simpa [childCharsAt] using ih ch q'
        · simp [hc]

theorem updateChildP_spec (c : Int) (f : PathTrie → PathTrie × Bool) (cs : List PathTrie) :
    updateChildP c f cs =
      (updateChild c (fun ch => (f ch).1) cs,
       match findChild cs c with
       | some ch => (f ch).2
       | none => false) := by
  induction cs with
  | nil => simp [updateChildP, updateChild, findChild]
  | cons ch rest ih =>
    by_cases h : ch.data.character = c
    · simp [updateChildP, updateChild, findChild, h]
    · simp [updateChildP, updateChild, findChild, h, ih]

theorem get_path_trie_at_nil (fstm : Fst) (t : PathTrie) (c : Int) (ts : Nat)
    (lpc : LogProb) (rs : Bool) :
    get_path_trie_at fstm t [] c ts lpc rs = get_path_trie fstm t c ts lpc rs := by
  cases t with
  | mk d cs => simp [get_path_trie_at]

theorem get_path_trie_at_cons (fstm : Fst) (d : NodeData) (cs : List PathTrie)
    (l : Int) (p : List Int) (c : Int) (ts : Nat) (lpc : LogProb) (rs : Bool) :
    get_path_trie_at fstm (.mk d cs) (l :: p) c ts lpc rs =
      (.mk d (updateChild l (fun ch => (get_path_trie_at fstm ch p c ts lpc rs).1) cs),
       match findChild cs l with
       | some ch => (get_path_trie_at fstm ch p c ts lpc rs).2
       | none => false) := by
  simp [get_path_trie_at, updateChildP_spec]

/-- `get_path_trie` never changes the data of the node it is invoked on when
it returns a child (only a dictionary miss touches `dictionary_state`). -/
theorem get_path_trie_hit_data (fstm : Fst) (t : PathTrie) (c : Int) (ts : Nat)
    (lpc : LogProb) (rs : Bool) (h : (get_path_trie fstm t c ts lpc rs).2 = true) :
    (get_path_trie fstm t c ts lpc rs).1.data = t.data := by
  cases t with
  | mk d cs =>
    cases hfc : findChild cs c with
    | some ch => simp [get_path_trie, hfc, PathTrie.data]
    | none =>
      cases hd : d.has_dictionary with
      | false => simp [get_path_trie, hfc, hd, PathTrie.data]
      | true =>
        cases hff : fstm.find d.dictionary_state (c + 1) with
        | none => simp [get_path_trie, hfc, hd, hff] at h
        | some ns => simp [get_path_trie, hfc, hd, hff, PathTrie.data]

theorem get_path_trie_character (fstm : Fst) (t : PathTrie) (c : Int) (ts : Nat)
    (lpc : LogProb) (rs : Bool) :
    (get_path_trie fstm t c ts lpc rs).1.data.character = t.data.character := by
  cases t with
  | mk d cs =>
    cases hfc : findChild cs c with
    | some ch => simp [get_path_trie, hfc, PathTrie.data]
    | none =>
      cases hd : d.has_dictionary with
      | false => simp [get_path_trie, hfc, hd, PathTrie.data]
      | true =>
        cases hff : fstm.find d.dictionary_state (c + 1) with
        | none =>
          by_cases hf : fstm.is_final d.dictionary_state ∧ rs = true
          · simp [get_path_trie, hfc, hd, hff, hf, PathTrie.data]
          · simp [get_path_trie, hfc, hd, hff, hf, PathTrie.data]
        | some ns => simp [get_path_trie, hfc, hd, hff, PathTrie.data]

theorem get_path_trie_at_character (fstm : Fst) (t : PathTrie) (p : List Int) (c : Int)
    (ts : Nat) (lpc : LogProb) (rs : Bool) :
    (get_path_trie_at fstm t p c ts lpc rs).1.data.character = t.data.character := by
  cases p with
  | nil => rw [get_path_trie_at_nil]; exact get_path_trie_character fstm t c ts lpc rs
  | cons l p' =>
    cases t with
    | mk d cs => rw [get_path_trie_at_cons]; simp [PathTrie.data]

/-- On a hit, `get_path_trie_at` leaves the data of the receiver (the node at
`p`) unchanged. -/
theorem get_path_trie_at_hit_dataAt (fstm : Fst) (c : Int) (ts : Nat)
    (lpc : LogProb) (rs : Bool) :
    ∀ (p : List Int) (t : PathTrie),
    (get_path_trie_at fstm t p c ts lpc rs).2 = true →
    dataAt (get_path_trie_at fstm t p c ts lpc rs).1 p = dataAt t p := by
  intro p
  induction p with
  | nil =>
    intro t h
    rw [get_path_trie_at_nil] at h ⊢
    rw [dataAt_nil, dataAt_nil, get_path_trie_hit_data fstm t c ts lpc rs h]
  | cons l p' ih =>
    intro t h
    cases t with
    | mk d cs =>
      rw [get_path_trie_at_cons] at h ⊢
      have hchar : ∀ ch : PathTrie,
          ((fun ch => (get_path_trie_at fstm ch p' c ts lpc rs).1) ch).data.character
            = ch.data.character :=
        fun ch => get_path_trie_at_character fstm ch p' c ts lpc rs
      rw [dataAt_cons, dataAt_cons, findChild_updateChild l l _ hchar cs, if_pos rfl]
      cases hfc : findChild cs l with
      | none => simp [hfc] at h
      | some ch => simpa using ih ch (by simpa [hfc] using h)

/-! ### Score stability: no step of the label/prefix double loop ever writes
a `score` field (scores change only at frame commit). -/

theorem scoreAt_nil (d : NodeData) (cs : List PathTrie) : scoreAt (.mk d cs) [] = d.score := by
  simp [scoreAt, dataAt_nil, PathTrie.data]

theorem scoreAt_cons (d : NodeData) (cs : List PathTrie) (c : Int) (q : List Int) :
    scoreAt (.mk d cs) (c :: q) =
      (match findChild cs c with
       | some ch => scoreAt ch q
       | none => ⊥) := by
  simp only [scoreAt, dataAt_cons]
  cases findChild cs c <;> simp [scoreAt]

theorem foundChildUpd_data (ts : Nat) (lpc : LogProb) (ch : PathTrie) :
    (foundChildUpd ts lpc ch).data.character = ch.data.character ∧
    (foundChildUpd ts lpc ch).data.score = ch.data.score ∧
    (foundChildUpd ts lpc ch).children_ = ch.children_ := by
  cases ch with
  | mk cd ccs =>
    simp only [foundChildUpd]
    constructor
    · split <;> split <;> simp [PathTrie.data]
    · constructor
      · split <;> split <;> simp [PathTrie.data]
      · simp [PathTrie.children_]

theorem scoreAt_mk_congr (cd cd2 : NodeData) (ccs : List PathTrie)
    (h : cd2.score = cd.score) (q : List Int) :
    scoreAt (.mk cd2 ccs) q = scoreAt (.mk cd ccs) q := by
  cases q with
  | nil => simp [scoreAt_nil, h]
  | cons c q' => simp [scoreAt_cons]

theorem findChild_append (cs : List PathTrie) (n : PathTrie) (c : Int) :
    findChild (cs ++ [n]) c =
      (match findChild cs c with
       | some ch => some ch
       | none => if n.data.character = c then some n else none) := by
  induction cs with
  | nil => simp [findChild]
  | cons ch rest ih =>
    by_cases h : ch.data.character = c
    · simp [findChild, h]
    · simp [findChild, h, ih]

theorem scoreAt_foundChildUpd (ts : Nat) (lpc : LogProb) (ch : PathTrie) (q : List Int) :
    scoreAt (foundChildUpd ts lpc ch) q = scoreAt ch q := by
  cases ch with
  | mk cd ccs =>
    cases hch : foundChildUpd ts lpc (.mk cd ccs) with
    | mk cd2 ccs2 =>
      have h2 := foundChildUpd_data ts lpc (.mk cd ccs)
      rw [hch] at h2
      simp only [PathTrie.data, PathTrie.children_] at h2
      rcases h2 with ⟨h2a, h2b, h2c⟩
      subst h2c
      exact scoreAt_mk_congr cd cd2 ccs2 h2b q

theorem scoreAt_get_path_trie (fstm : Fst) (t : PathTrie) (c : Int) (ts : Nat)
    (lpc : LogProb) (rs : Bool) (q : List Int) :
    scoreAt (get_path_trie fstm t c ts lpc rs).1 q = scoreAt t q := by
  cases t with
  | mk d cs =>
    cases hfc : findChild cs c with
    | some ch0 =>
      simp only [get_path_trie, hfc]
      cases q with
      | nil => simp [scoreAt_nil]
      | cons c' q' =>
        rw [scoreAt_cons, scoreAt_cons,
          findChild_updateChild c c' _ (fun ch => (foundChildUpd_data ts lpc ch).1) cs]
        by_cases hc : c' = c
        · subst hc
          rw [if_pos rfl, hfc]
          simpa using scoreAt_foundChildUpd ts lpc ch0 q'
        · rw [if_neg hc]
    | none =>
      by_cases hd : d.has_dictionary = true
      · cases hff : fstm.find d.dictionary_state (c + 1) with
        | none =>
          simp only [get_path_trie, hfc, hd, if_true, hff]
          apply scoreAt_mk_congr
          split <;> simp
        | some ns =>
          simp only [get_path_trie, hfc, hd, if_true, hff]
          cases q with
          | nil => simp [scoreAt_nil]
          | cons c' q' =>
            rw [scoreAt_cons, scoreAt_cons, findChild_append]
            cases hfc2 : findChild cs c' with
            | some ch => simp
            | none =>
              simp only [PathTrie.data]
              by_cases hc : c = c'
              · rw [if_pos hc]
                cases q' with
                | nil => simp [scoreAt_nil]
                | cons c'' r => simp [scoreAt_cons, findChild]
              · rw [if_neg hc]
      · simp only [Bool.not_eq_true] at hd
        simp only [get_path_trie, hfc, hd, Bool.false_eq_true, if_false]
        cases q with
        | nil => simp [scoreAt_nil]
        | cons c' q' =>
          rw [scoreAt_cons, scoreAt_cons, findChild_append]
          cases hfc2 : findChild cs c' with
          | some ch => simp
          | none =>
            simp only [PathTrie.data]
            by_cases hc : c = c'
            · rw [if_pos hc]
              cases q' with
              | nil => simp [scoreAt_nil]
              | cons c'' r => simp [scoreAt_cons, findChild]
            · rw [if_neg hc]

theorem scoreAt_get_path_trie_at (fstm : Fst) (c : Int) (ts : Nat) (lpc : LogProb)
    (rs : Bool) :
    ∀ (p : List Int) (t : PathTrie) (q : List Int),
    scoreAt (get_path_trie_at fstm t p c ts lpc rs).1 q = scoreAt t q := by
  intro p
  induction p with
  | nil =>
    intro t q
    rw [get_path_trie_at_nil]
    exact scoreAt_get_path_trie fstm t c ts lpc rs q
  | cons l p' ih =>
    intro t q
    cases t with
    | mk d cs =>
      rw [get_path_trie_at_cons]
      cases q with
      | nil => simp [scoreAt_nil]
      | cons c' q' =>
        rw [scoreAt_cons, scoreAt_cons,
          findChild_updateChild l c' _
            (fun ch => get_path_trie_at_character fstm ch p' c ts lpc rs) cs]
        by_cases hc : c' = l
        · subst hc
          cases hfc : findChild cs c' with
          | none => simp
          | some ch => simpa using ih ch q'
        · rw [if_neg hc]

theorem scoreAt_updateDataAt (g : NodeData → NodeData)
    (hg : ∀ d, (g d).character = d.character) (hs : ∀ d, (g d).score = d.score)
    (t : PathTrie) (p : List Int) (q : List Int) :
    scoreAt (updateDataAt t p g) q = scoreAt t q := by
  simp only [scoreAt, dataAt_updateDataAt g hg p t q]
  by_cases h : q = p
  · rw [if_pos h, h]
    cases dataAt t p <;> simp [hs]
  · rw [if_neg h]

theorem scoreAt_extensionStep (env : Env) (abs_t : Nat) (c : Nat) (lpc : LogProb)
    (t : PathTrie) (p : List Int) (q : List Int) :
    scoreAt (extensionStep env abs_t c lpc t p) q = scoreAt t q := by
  simp only [extensionStep]
  by_cases h : (get_path_trie_at env.fstm t p (c : Int) abs_t lpc true).2 = true
  · rw [if_pos h]
    have h1 : scoreAt (get_path_trie_at env.fstm t p (c : Int) abs_t lpc true).1 q
        = scoreAt t q :=
      scoreAt_get_path_trie_at env.fstm (c : Int) abs_t lpc true p t q
    rw [← h1]
    apply scoreAt_updateDataAt <;> intro d <;> rfl
  · rw [if_neg h]
    exact scoreAt_get_path_trie_at env.fstm (c : Int) abs_t lpc true p t q

/-- The inner-loop body never writes any `score` field. -/
theorem scoreAt_prefixBody (env : Env) (blank_id abs_t : Nat) (c : Nat) (lpc : LogProb)
    (t : PathTrie) (p : List Int) (q : List Int) :
    scoreAt (prefixBody env blank_id abs_t c lpc t p) q = scoreAt t q := by
  simp only [prefixBody]
  by_cases hb : c = blank_id
  · rw [if_pos hb]
    apply scoreAt_updateDataAt <;> intro d <;> rfl
  · rw [if_neg hb]
    by_cases hr : (c : Int) = ((dataAt t p).getD {}).character
    · rw [if_pos hr]
      refine Eq.trans (scoreAt_extensionStep env abs_t c lpc _ p q) ?_
      apply scoreAt_updateDataAt <;> intro d <;> rfl
    · rw [if_neg hr]
      exact scoreAt_extensionStep env abs_t c lpc t p q

/-! ### Claims C1 and C2: blank and repeated-character accumulation -/

/-- C1: in `DecoderState::next`, whenever the inner loop processes a prefix
`p` with a pruned label `c` equal to `blank_id` (lines 86-91), the whole
effect is exactly `p.log_prob_b_cur := log_sum_exp(p.log_prob_b_cur,
log_prob_c + p.score)`; the loop `continue`s, so no child node is created or
reactivated anywhere for that `(p, c)` pair and no other node changes. -/
theorem next_blank_case (env : Env) (blank_id abs_t : Nat) (lpc : LogProb)
    (t : PathTrie) (p : List Int) :
    prefixBody env blank_id abs_t blank_id lpc t p
      = updateDataAt t p (blankUpd env.lse lpc) ∧
    dataAt (prefixBody env blank_id abs_t blank_id lpc t p) p
      = (dataAt t p).map (blankUpd env.lse lpc) ∧
    (∀ q, childCharsAt (prefixBody env blank_id abs_t blank_id lpc t p) q
      = childCharsAt t q) ∧
    (∀ q, existsAt (prefixBody env blank_id abs_t blank_id lpc t p) q = existsAt t q) ∧
    (∀ q, q ≠ p → dataAt (prefixBody env blank_id abs_t blank_id lpc t p) q = dataAt t q) := by
  have hbody : prefixBody env blank_id abs_t blank_id lpc t p
      = updateDataAt t p (blankUpd env.lse lpc) := by
    simp [prefixBody]
  have hg : ∀ d : NodeData, (blankUpd env.lse lpc d).character = d.character :=
    fun d => rfl
  refine ⟨hbody, ?_, ?_, ?_, ?_⟩
  · rw [hbody, dataAt_updateDataAt _ hg, if_pos rfl]
  · intro q
    rw [hbody, childCharsAt_updateDataAt _ hg]
  · intro q
    rw [hbody]
    simp only [existsAt, dataAt_updateDataAt _ hg]
    by_cases h : q = p
    · rw [if_pos h, h]
      cases dataAt t p <;> simp [blankUpd]
    · rw [if_neg h]
  · intro q hq
    rw [hbody, dataAt_updateDataAt _ hg, if_neg hq]

/-- C2: when the pruned label `c` equals `p.character` (and is not the
blank), lines 93-97 accumulate into the parent exactly
`p.log_prob_nb_cur := log_sum_exp(p.log_prob_nb_cur, log_prob_c +
p.log_prob_nb_prev)` — reading only the non-blank-prev channel, not
`log_prob_b_prev` or `score` — and the body then still attempts the
extension of `p` by `c` on the updated trie. -/
theorem next_repeat_case (env : Env) (blank_id abs_t : Nat) (c : Nat) (lpc : LogProb)
    (t : PathTrie) (p : List Int) (d : NodeData)
    (hd : dataAt t p = some d) (hc : (c : Int) = d.character) (hb : c ≠ blank_id) :
    prefixBody env blank_id abs_t c lpc t p
      = extensionStep env abs_t c lpc (updateDataAt t p (repeatUpd env.lse lpc)) p ∧
    dataAt (updateDataAt t p (repeatUpd env.lse lpc)) p
      = some { d with log_prob_nb_cur := env.lse d.log_prob_nb_cur (lpc + d.log_prob_nb_prev) } := by
  have hg : ∀ d' : NodeData, (repeatUpd env.lse lpc d').character = d'.character :=
    fun d' => rfl
  constructor
  · simp only [prefixBody, if_neg hb, hd]
    rw [if_pos]
    simpa [hd] using hc
  · rw [dataAt_updateDataAt _ hg, if_pos rfl, hd]
    rfl

/-- Witness for C2 at a concrete input. -/
theorem next_repeat_case_witness :
    dataAt t0 [0] = some nodeA ∧ ((0 : Nat) : Int) = nodeA.character ∧ (0 : Nat) ≠ 2 ∧
    (prefixBody env0 2 1 0 ((-1 : ℚ) : LogProb) t0 [0]
      = extensionStep env0 1 0 ((-1 : ℚ) : LogProb)
          (updateDataAt t0 [0] (repeatUpd env0.lse ((-1 : ℚ) : LogProb))) [0] ∧
     dataAt (updateDataAt t0 [0] (repeatUpd env0.lse ((-1 : ℚ) : LogProb))) [0]
      = some { nodeA with
          log_prob_nb_cur := env0.lse nodeA.log_prob_nb_cur (((-1 : ℚ) : LogProb) + nodeA.log_prob_nb_prev) }) :=
  ⟨by decide, by decide, by decide,
   next_repeat_case env0 2 1 0 ((-1 : ℚ) : LogProb) t0 [0] nodeA (by decide) (by decide)
     (by decide)⟩

/-! ### Claim C3: the extension accumulation -/

/-- C3: whenever `get_path_trie` yields a child for `(p, c)`, the body
accumulates `child.log_prob_nb_cur ⊕= log_p` on the new child `p ++ [c]`,
where `log_p` is `log_prob_c + p.log_prob_b_prev` for a blank-separated
repeat (`c == p.character` with `log_prob_b_prev > -∞`), `log_prob_c +
p.score` for a fresh label, `-∞` otherwise, increased by
`alpha · get_log_cond_prob(ngram, bos) + beta` when a scorer is attached and
`is_scoring_boundary` holds for the child (utf8 mode) or the parent, with
`bos` true iff the ngram is shorter than `max_order` (lines 99-135). -/
theorem next_extension_case (env : Env) (abs_t : Nat) (c : Nat) (lpc : LogProb)
    (t : PathTrie) (p : List Int) (d : NodeData)
    (hd : dataAt t p = some d)
    (hhit : (get_path_trie_at env.fstm t p (c : Int) abs_t lpc true).2 = true) :
    extensionStep env abs_t c lpc t p
      = updateDataAt (get_path_trie_at env.fstm t p (c : Int) abs_t lpc true).1
          (p ++ [(c : Int)]) (childAccum env.lse (extLogP env c lpc d p)) := by
  have hpd : (dataAt (get_path_trie_at env.fstm t p (c : Int) abs_t lpc true).1 p).getD {}
      = d := by
    rw [get_path_trie_at_hit_dataAt env.fstm (c : Int) abs_t lpc true p t hhit, hd]
    rfl
  simp only [extensionStep, if_pos hhit, hpd, extLogP]

/-- Witness for C3 at a concrete input. -/
theorem next_extension_case_witness :
    dataAt t0 [] = some nodeR ∧
    (get_path_trie_at env1.fstm t0 [] ((0 : Nat) : Int) 1 ((-1 : ℚ) : LogProb) true).2 = true ∧
    extensionStep env1 1 0 ((-1 : ℚ) : LogProb) t0 []
      = updateDataAt (get_path_trie_at env1.fstm t0 [] ((0 : Nat) : Int) 1 ((-1 : ℚ) : LogProb) true).1
          ([] ++ [((0 : Nat) : Int)])
          (childAccum env1.lse (extLogP env1 0 ((-1 : ℚ) : LogProb) nodeR [])) :=
  ⟨by decide, by rw [get_path_trie_at_nil]; decide,
   next_extension_case env1 1 0 ((-1 : ℚ) : LogProb) t0 [] nodeR (by decide)
     (by rw [get_path_trie_at_nil]; decide)⟩

/-! ### Claim C6: dictionary-guided child admission -/

/-- C6: `get_path_trie` on a dictionary-bearing node with no existing child
for `new_char` consults the FST matcher from the node's `dictionary_state`
with input symbol `new_char + 1`.  On a miss it returns null after resetting
the node's state to the FST start state when the current state is final and
`reset` holds; on a hit it appends exactly one child whose state is the
arc's `nextstate`, snapped to the start state when that `nextstate` is final
and `reset` holds.  Hence a child is added iff the FST accepts the symbol
(`path_trie.cpp` lines 63-101). -/
theorem get_path_trie_dictionary (fstm : Fst) (d : NodeData) (cs : List PathTrie)
    (c : Int) (ts : Nat) (lpc : LogProb) (rs : Bool)
    (hnc : findChild cs c = none) (hdict : d.has_dictionary = true) :
    (fstm.find d.dictionary_state (c + 1) = none →
      get_path_trie fstm (.mk d cs) c ts lpc rs =
        (.mk (if fstm.is_final d.dictionary_state ∧ rs
              then { d with dictionary_state := fstm.start } else d) cs, false)) ∧
    (∀ nextstate, fstm.find d.dictionary_state (c + 1) = some nextstate →
      get_path_trie fstm (.mk d cs) c ts lpc rs =
        (.mk d (cs ++ [.mk
          { character := c, timestep := ts, log_prob_c := lpc,
            has_dictionary := true,
            dictionary_state := if fstm.is_final nextstate ∧ rs
              then fstm.start else nextstate } []]), true)) ∧
    ((get_path_trie fstm (.mk d cs) c ts lpc rs).2 = true ↔
      (fstm.find d.dictionary_state (c + 1)).isSome = true) := by
  refine ⟨?_, ?_, ?_⟩
  · intro hff
    simp [get_path_trie, hnc, hdict, hff]
  · intro ns hff
    simp [get_path_trie, hnc, hdict, hff]
  · cases hff : fstm.find d.dictionary_state (c + 1) with
    | none => simp [get_path_trie, hnc, hdict, hff]
    | some ns => simp [get_path_trie, hnc, hdict, hff]

/-- Witness for C6 at a concrete input (FST hit from state `0` on symbol
`0 + 1`). -/
theorem get_path_trie_dictionary_witness :
    findChild ([] : List PathTrie) 0 = none ∧ nodeD.has_dictionary = true ∧
    ((fst0.find nodeD.dictionary_state (0 + 1) = none →
      get_path_trie fst0 (.mk nodeD []) 0 1 ((-1 : ℚ) : LogProb) true =
        (.mk (if fst0.is_final nodeD.dictionary_state ∧ True
              then { nodeD with dictionary_state := fst0.start } else nodeD) [], false)) ∧
    (∀ nextstate, fst0.find nodeD.dictionary_state (0 + 1) = some nextstate →
      get_path_trie fst0 (.mk nodeD []) 0 1 ((-1 : ℚ) : LogProb) true =
        (.mk nodeD ([] ++ [.mk
          { character := 0, timestep := 1, log_prob_c := ((-1 : ℚ) : LogProb),
            has_dictionary := true,
            dictionary_state := if fst0.is_final nextstate ∧ True
              then fst0.start else nextstate } []]), true)) ∧
    ((get_path_trie fst0 (.mk nodeD []) 0 1 ((-1 : ℚ) : LogProb) true).2 = true ↔
      (fst0.find nodeD.dictionary_state (0 + 1)).isSome = true)) := by
  refine ⟨rfl, rfl, ?_⟩
  have h := get_path_trie_dictionary fst0 nodeD [] 0 1 ((-1 : ℚ) : LogProb) true rfl rfl
  simpa using h

/-! ### Claim C4: full-beam cutoff -/

theorem takeWhile_const_true {α : Type} (l : List α) :
    l.takeWhile (fun _ => true) = l := by
  induction l with
  | nil => rfl
  | cons a l ih => simp [List.takeWhile, ih]

theorem loopPrefixes_takeWhile_aux (env : Env) (blank_id abs_t : Nat) (c : Nat)
    (lpc : LogProb) (fb : Bool) (mc : LogProb) :
    ∀ (ps : List (List Int)) (t0 t : PathTrie),
    (∀ q, scoreAt t q = scoreAt t0 q) →
    loopPrefixes env blank_id abs_t c lpc fb mc t ps
      = (ps.takeWhile (fun p => !(fb && decide (lpc + scoreAt t0 p < mc)))).foldl
          (fun t' p => prefixBody env blank_id abs_t c lpc t' p) t := by
  intro ps
  induction ps with
  | nil => intro t0 t _; rfl
  | cons p rest ih =>
    intro t0 t hsc
    have hueq : loopPrefixes env blank_id abs_t c lpc fb mc t (p :: rest)
        = if fb = true ∧ lpc + scoreAt t p < mc then t
          else loopPrefixes env blank_id abs_t c lpc fb mc
            (prefixBody env blank_id abs_t c lpc t p) rest := by
      simp [loopPrefixes]
    by_cases hcond : fb = true ∧ lpc + scoreAt t0 p < mc
    · have hcond' : fb = true ∧ lpc + scoreAt t p < mc := by rw [hsc]; exact hcond
      have htw : List.takeWhile (fun p => !(fb && decide (lpc + scoreAt t0 p < mc)))
          (p :: rest) = [] := by
        rw [List.takeWhile_cons]
        simp [hcond.1, hcond.2]
      rw [hueq, if_pos hcond', htw]
      rfl
    · have hcond' : ¬ (fb = true ∧ lpc + scoreAt t p < mc) := by rw [hsc]; exact hcond
      have htw : List.takeWhile (fun p => !(fb && decide (lpc + scoreAt t0 p < mc)))
          (p :: rest)
          = p :: List.takeWhile (fun p => !(fb && decide (lpc + scoreAt t0 p < mc))) rest := by
        rw [List.takeWhile_cons]
        by_cases hfb : fb = true
        · have hnl : ¬ (lpc + scoreAt t0 p < mc) := fun h => hcond ⟨hfb, h⟩
          simp [hfb, hnl]
        · have hfb' : fb = false := by
            cases fb with
            | false => rfl
            | true => exact absurd rfl hfb
          simp [hfb']
      rw [hueq, if_neg hcond', htw, List.foldl_cons]
      exact ih t0 (prefixBody env blank_id abs_t c lpc t p)
        (fun q => (scoreAt_prefixBody env blank_id abs_t c lpc t p q).trans (hsc q))

theorem mem_insertComp (comp : List Int → List Int → Bool) (a : List Int)
    (l : List (List Int)) (y : List Int) :
    y ∈ insertComp comp a l ↔ y = a ∨ y ∈ l := by
  induction l with
  | nil => simp [insertComp]
  | cons b l ih =>
    by_cases h : comp b a
    · simp only [insertComp, if_pos h, List.mem_cons, ih]
      tauto
    · simp [insertComp, if_neg h, List.mem_cons]

theorem pairwise_insertComp (comp : List Int → List Int → Bool)
    (hasym : ∀ a b, comp a b = true → comp b a = false)
    (htrans : ∀ x y z, comp x y = false → comp y z = false → comp x z = false)
    (a : List Int) (l : List (List Int))
    (h : l.Pairwise (fun x y => comp y x = false)) :
    (insertComp comp a l).Pairwise (fun x y => comp y x = false) := by
  induction l with
  | nil => simp [insertComp]
  | cons b l ih =>
    rcases List.pairwise_cons.mp h with ⟨hb, hl⟩
    by_cases hba : comp b a
    · simp only [insertComp, if_pos hba]
      refine List.pairwise_cons.mpr ⟨?_, ih hl⟩
      intro y hy
      rcases (mem_insertComp comp a l y).mp hy with rfl | hyl
      · exact hasym b y hba
      · exact hb y hyl
    · simp only [insertComp, if_neg hba]
      refine List.pairwise_cons.mpr ⟨?_, h⟩
      intro y hy
      rcases List.mem_cons.mp hy with rfl | hyl
      · exact Bool.eq_false_iff.mpr (fun hc => hba (by simp [hc]))
      · exact htrans y b a (hb y hyl) (Bool.eq_false_iff.mpr (fun hc => hba (by simp [hc])))

theorem pairwise_sortComp (comp : List Int → List Int → Bool)
    (hasym : ∀ a b, comp a b = true → comp b a = false)
    (htrans : ∀ x y z, comp x y = false → comp y z = false → comp x z = false)
    (l : List (List Int)) :
    (sortComp comp l).Pairwise (fun x y => comp y x = false) := by
  induction l with
  | nil => simp [sortComp]
  | cons b l ih => exact pairwise_insertComp comp hasym htrans b (sortComp comp l) ih

/-- C4: with a scorer, `min_cutoff` is the `n`-th best score plus
`log(prob[blank_id]) - max(0, beta)` over the beam partially sorted by
`prefix_compare` (score descending), and `full_beam` holds iff
`n = beam_size`; without a scorer they are `-∞` and `false`.  For each
pruned label the prefix loop processes exactly the longest prefix of the
beam slice on which the cutoff does not fire: it stops at the first prefix
with `full_beam` and `log_prob_c + p.score < min_cutoff`, skipping that
prefix and all later ones (scores are stable during the double loop), and
with `full_beam = false` no prefix is ever skipped. -/
theorem next_full_beam_cutoff (lsef : LogProb → LogProb → LogProb) (fstm : Fst)
    (scr : Scorer) (env : Env) (s : DecoderState) (fi : FrameInput)
    (blank_id abs_t : Nat) (c : Nat) (lpc : LogProb) (fb : Bool) (mc : LogProb)
    (t : PathTrie) (ps : List (List Int)) :
    (min_cutoff_val { lse := lsef, fstm := fstm, scorer := some scr } s fi
      = scoreAt s.prefix_root
          ((sorted_prefixes { lse := lsef, fstm := fstm, scorer := some scr } s).getD
            (num_prefixes s - 1) [])
        + fi.logBlank + (((-(max 0 scr.beta)) : ℚ) : LogProb) ∧
     full_beam_val { lse := lsef, fstm := fstm, scorer := some scr } s
      = decide (num_prefixes s = s.beam_size) ∧
     sorted_prefixes { lse := lsef, fstm := fstm, scorer := some scr } s
      = sortComp (prefix_compare s.prefix_root) s.prefixes) ∧
    (min_cutoff_val { lse := lsef, fstm := fstm, scorer := none } s fi = ⊥ ∧
     full_beam_val { lse := lsef, fstm := fstm, scorer := none } s = false) ∧
    (loopPrefixes env blank_id abs_t c lpc fb mc t ps
      = (ps.takeWhile (fun p => !(fb && decide (lpc + scoreAt t p < mc)))).foldl
          (fun t' p => prefixBody env blank_id abs_t c lpc t' p) t) ∧
    (loopPrefixes env blank_id abs_t c lpc false mc t ps
      = ps.foldl (fun t' p => prefixBody env blank_id abs_t c lpc t' p) t) ∧
    ((sortComp (prefix_compare s.prefix_root) s.prefixes).take (num_prefixes s)).Chain'
      (fun a b => scoreAt s.prefix_root b ≤ scoreAt s.prefix_root a) := by
  refine ⟨⟨rfl, ?_, ?_⟩, ⟨rfl, rfl⟩, ?_, ?_, ?_⟩
  · simp [full_beam_val]
  · simp [sorted_prefixes]
  · exact loopPrefixes_takeWhile_aux env blank_id abs_t c lpc fb mc ps t t (fun q => rfl)
  · rw [loopPrefixes_takeWhile_aux env blank_id abs_t c lpc false mc ps t t (fun q => rfl)]
    simp only [Bool.false_and, Bool.not_false]
    rw [takeWhile_const_true]
  · have hasym : ∀ a b, prefix_compare s.prefix_root a b = true →
        prefix_compare s.prefix_root b a = false := by
      intro a b hab
      simp only [prefix_compare, decide_eq_true_eq] at hab
      simp only [prefix_compare, decide_eq_false_iff_not]
      exact fun hba => absurd (lt_trans hab hba) (lt_irrefl _)
    have htrans : ∀ x y z, prefix_compare s.prefix_root x y = false →
        prefix_compare s.prefix_root y z = false → prefix_compare s.prefix_root x z = false := by
      intro x y z hxy hyz
      simp only [prefix_compare, decide_eq_false_iff_not, not_lt] at hxy hyz ⊢
      exact le_trans hxy hyz
    have hp := pairwise_sortComp (prefix_compare s.prefix_root) hasym htrans s.prefixes
    have hp2 : ((sortComp (prefix_compare s.prefix_root) s.prefixes).take
        (num_prefixes s)).Pairwise (fun x y => prefix_compare s.prefix_root y x = false) :=
      hp.sublist (List.take_sublist _ _)
    have hp3 : ((sortComp (prefix_compare s.prefix_root) s.prefixes).take
        (num_prefixes s)).Pairwise
        (fun a b => scoreAt s.prefix_root b ≤ scoreAt s.prefix_root a) := by
      refine hp2.imp ?_
      intro a b hab
      simp only [prefix_compare, decide_eq_false_iff_not, not_lt] at hab
      exact hab
    exact hp3.chain'

/-! ### Claim C5: the frame commit -/

mutual
theorem iterate_to_vec_fst (lse : LogProb → LogProb → LogProb) :
    ∀ (t : PathTrie) (pre : List Int),
    (iterate_to_vec lse t pre).1 = mapDataT (commitIfLive lse) t
| .mk d cs, pre => by
  have hc := iterChildren_fst lse cs pre
  by_cases hd : d.exists_ = true
  · simp [iterate_to_vec, mapDataT, hd, commitIfLive, hc]
  · simp [iterate_to_vec, mapDataT, hd, commitIfLive, hc]

theorem iterChildren_fst (lse : LogProb → LogProb → LogProb) :
    ∀ (cs : List PathTrie) (pre : List Int),
    (iterChildren lse cs pre).1 = mapDataL (commitIfLive lse) cs
| [], _ => by simp [iterChildren, mapDataL]
| ch :: rest, pre => by
  have h1 := iterate_to_vec_fst lse ch (pre ++ [ch.data.character])
  have h2 := iterChildren_fst lse rest pre
  simp [iterChildren, mapDataL, h1, h2]
end

theorem mapDataT_data (f : NodeData → NodeData) (t : PathTrie) :
    (mapDataT f t).data = f t.data := by
  cases t; simp [mapDataT, PathTrie.data]

theorem findChild_mapDataL (f : NodeData → NodeData)
    (hf : ∀ d, (f d).character = d.character) (cs : List PathTrie) (c : Int) :
    findChild (mapDataL f cs) c = (findChild cs c).map (mapDataT f) := by
  induction cs with
  | nil => simp [mapDataL, findChild]
  | cons ch rest ih =>
    by_cases h : ch.data.character = c
    · simp [mapDataL, findChild, mapDataT_data, hf, h]
    · simp [mapDataL, findChild, mapDataT_data, hf, h, ih]

theorem dataAt_mapDataT (f : NodeData → NodeData)
    (hf : ∀ d, (f d).character = d.character) :
    ∀ (q : List Int) (t : PathTrie),
    dataAt (mapDataT f t) q = (dataAt t q).map f := by
  intro q
  induction q with
  | nil =>
    intro t
    rw [dataAt_nil, dataAt_nil, mapDataT_data]
    rfl
  | cons c q' ih =>
    intro t
    cases t with
    | mk d cs =>
      simp only [mapDataT, dataAt_cons, findChild_mapDataL f hf]
      cases findChild cs c with
      | none => simp
      | some ch => simpa using ih ch

/-- C5: after every frame commit (`iterate_to_vec`, called once per frame
from `next`), every node that was live going in carries exactly the
committed data: `_prev` fields hold the `_cur` values accumulated during
the just-finished frame, both `_cur` fields are reset to `-∞`, and `score`
is recomputed exactly here as `log_sum_exp(log_prob_b_prev,
log_prob_nb_prev)` (`path_trie.cpp` lines 176-190). -/
theorem iterate_commit_invariant (lse : LogProb → LogProb → LogProb) (t : PathTrie)
    (pre q : List Int) (d : NodeData)
    (hd : dataAt t q = some d) (hex : d.exists_ = true) :
    dataAt (iterate_to_vec lse t pre).1 q = some (commitData lse d) ∧
    (commitData lse d).log_prob_b_prev = d.log_prob_b_cur ∧
    (commitData lse d).log_prob_nb_prev = d.log_prob_nb_cur ∧
    (commitData lse d).log_prob_b_cur = ⊥ ∧
    (commitData lse d).log_prob_nb_cur = ⊥ ∧
    (commitData lse d).score
      = lse (commitData lse d).log_prob_b_prev (commitData lse d).log_prob_nb_prev := by
  refine ⟨?_, rfl, rfl, rfl, rfl, rfl⟩
  rw [iterate_to_vec_fst lse t pre,
    dataAt_mapDataT (commitIfLive lse) (fun d' => by simp [commitIfLive, commitData]; split <;> rfl) q t,
    hd]
  simp [commitIfLive, hex]

/-- Witness for C5 at a concrete input. -/
theorem iterate_commit_invariant_witness :
    dataAt t0 [0] = some nodeA ∧ nodeA.exists_ = true ∧
    (dataAt (iterate_to_vec lse0 t0 []).1 [0] = some (commitData lse0 nodeA) ∧
     (commitData lse0 nodeA).log_prob_b_prev = nodeA.log_prob_b_cur ∧
     (commitData lse0 nodeA).log_prob_nb_prev = nodeA.log_prob_nb_cur ∧
     (commitData lse0 nodeA).log_prob_b_cur = ⊥ ∧
     (commitData lse0 nodeA).log_prob_nb_cur = ⊥ ∧
     (commitData lse0 nodeA).score
      = lse0 (commitData lse0 nodeA).log_prob_b_prev (commitData lse0 nodeA).log_prob_nb_prev) :=
  ⟨by decide, by decide, iterate_commit_invariant lse0 t0 [] [0] nodeA (by decide) (by decide)⟩

/-! ### Claim C8: beam rebuild and pruning -/

theorem frameStep_beam_size (env : Env) (s : DecoderState) (fi : FrameInput) :
    (frameStep env s fi).beam_size = s.beam_size := rfl

theorem next_beam_size (env : Env) :
    ∀ (frames : List FrameInput) (s : DecoderState),
    (next env s frames).beam_size = s.beam_size := by
  intro frames
  induction frames with
  | nil => intro s; rfl
  | cons fi rest ih =>
    intro s
    show (next env (frameStep env s fi) rest).beam_size = s.beam_size
    rw [ih (frameStep env s fi), frameStep_beam_size]

theorem frameStep_prefixes_spec (env : Env) (s : DecoderState) (fi : FrameInput) :
    (frameStep env s fi).prefixes
      = (if s.beam_size < (iterate_to_vec env.lse (frameLoops env s fi) []).2.length
         then (sortComp (prefix_compare (iterate_to_vec env.lse (frameLoops env s fi) []).1)
                (iterate_to_vec env.lse (frameLoops env s fi) []).2).take s.beam_size
         else (iterate_to_vec env.lse (frameLoops env s fi) []).2) ∧
    (frameStep env s fi).prefix_root
      = (if s.beam_size < (iterate_to_vec env.lse (frameLoops env s fi) []).2.length
         then (((sortComp (prefix_compare (iterate_to_vec env.lse (frameLoops env s fi) []).1)
                (iterate_to_vec env.lse (frameLoops env s fi) []).2).drop s.beam_size).foldl
                  remove_at (iterate_to_vec env.lse (frameLoops env s fi) []).1)
         else (iterate_to_vec env.lse (frameLoops env s fi) []).1) := by
  constructor <;> (simp only [frameStep]; split <;> rfl)

theorem frameStep_prefixes_le (env : Env) (s : DecoderState) (fi : FrameInput) :
    (frameStep env s fi).prefixes.length ≤ s.beam_size := by
  rw [(frameStep_prefixes_spec env s fi).1]
  split
  · simp [List.length_take]
  · omega

/-- C8: at the end of every frame the beam vector is rebuilt from the
commit traversal (`iterate_to_vec` collects exactly the `exists_` nodes in
pre-order), and when it exceeds `beam_size` the top `beam_size` entries by
the beam ordering are kept while `remove()` is folded over every dropped
entry and the vector is truncated (lines 139-155); consequently
`|beam| ≤ beam_size` after every frame, and hence after any non-empty
`next` call. -/
theorem next_beam_prune (env : Env) (s : DecoderState) (fi : FrameInput)
    (frames : List FrameInput) (fi2 : FrameInput) :
    ((frameStep env s fi).prefixes
      = (if s.beam_size < (iterate_to_vec env.lse (frameLoops env s fi) []).2.length
         then (sortComp (prefix_compare (iterate_to_vec env.lse (frameLoops env s fi) []).1)
                (iterate_to_vec env.lse (frameLoops env s fi) []).2).take s.beam_size
         else (iterate_to_vec env.lse (frameLoops env s fi) []).2)) ∧
    ((frameStep env s fi).prefix_root
      = (if s.beam_size < (iterate_to_vec env.lse (frameLoops env s fi) []).2.length
         then (((sortComp (prefix_compare (iterate_to_vec env.lse (frameLoops env s fi) []).1)
                (iterate_to_vec env.lse (frameLoops env s fi) []).2).drop s.beam_size).foldl
                  remove_at (iterate_to_vec env.lse (frameLoops env s fi) []).1)
         else (iterate_to_vec env.lse (frameLoops env s fi) []).1)) ∧
    ((frameStep env s fi).prefixes.length ≤ s.beam_size) ∧
    ((next env s (frames ++ [fi2])).prefixes.length ≤ s.beam_size) := by
  refine ⟨(frameStep_prefixes_spec env s fi).1, (frameStep_prefixes_spec env s fi).2,
    frameStep_prefixes_le env s fi, ?_⟩
  show ((frames ++ [fi2]).foldl (frameStep env) s).prefixes.length ≤ s.beam_size
  rw [List.foldl_append]
  calc ((frameStep env (frames.foldl (frameStep env) s) fi2)).prefixes.length
      ≤ (frames.foldl (frameStep env) s).beam_size :=
        frameStep_prefixes_le env (frames.foldl (frameStep env) s) fi2
    _ = s.beam_size := next_beam_size env frames s

/-! ### Claim C10: `decode` does not modify the decoder state -/

/-- C10: `decode()` is a pure observation of the decoder state (it sorts a
copy of the beam and keeps rescoring scores in a side map, writing no
`PathTrie` field and not the stored beam): any run of consecutive
`decode()` calls returns the same output list every time, the state a
subsequent `next()` sees is the state as if `decode()` had never been
called, and dropping all `decode()` calls from an operation sequence leaves
the final state unchanged. -/
theorem decode_const (env : Env) (s : DecoderState) (n : Nat) (ops : List DecOp) :
    runOps env s (List.replicate n .decodeOp ++ ops)
      = ((runOps env s ops).1, List.replicate n (decode env s) ++ (runOps env s ops).2) ∧
    (runOps env s ops).1 = (runOps env s (ops.filter DecOp.isNext)).1 := by
  constructor
  · induction n with
    | zero => simp
    | succ m ih =>
      rw [List.replicate_succ, List.cons_append]
      show (let r := runOps env s (List.replicate m .decodeOp ++ ops)
            (r.1, decode env s :: r.2)) = _
      rw [ih]
      simp [List.replicate_succ]
  · have h2 : ∀ (ops' : List DecOp) (s' : DecoderState),
        (runOps env s' ops').1 = (runOps env s' (ops'.filter DecOp.isNext)).1 := by
      intro ops'
      induction ops' with
      | nil => intro s'; rfl
      | cons op rest ih =>
        intro s'
        cases op with
        | nextOp frames =>
          simp only [List.filter_cons, DecOp.isNext, if_pos rfl]
          exact ih (next env s' frames)
        | decodeOp =>
          show (runOps env s' rest).1 = _
          simp only [List.filter_cons, DecOp.isNext]
          exact ih s'
    exact h2 ops s

/-! ### Claim C9: final rescoring in `decode` -/

theorem getScore_setScore_self (m : List (List Int × LogProb)) (p : List Int) (v : LogProb) :
    getScore (setScore m p v) p = v := by
  induction m with
  | nil => simp [setScore, getScore]
  | cons e m ih =>
    by_cases h : e.1 = p
    · simp [setScore, getScore, h]
    · simp [setScore, getScore, h, ih]

theorem getScore_setScore_ne (m : List (List Int × LogProb)) (p q : List Int) (v : LogProb)
    (h : q ≠ p) :
    getScore (setScore m p v) q = getScore m q := by
  induction m with
  | nil =>
    simp only [setScore, getScore]
    rw [if_neg (fun hx : p = q => h hx.symm)]
  | cons e m ih =>
    by_cases he : e.1 = p
    · simp only [setScore, if_pos he, getScore]
      rw [if_neg (by rw [he]; exact fun hx => h hx.symm), if_neg (by rw [he]; exact fun hx => h hx.symm)]
    · simp only [setScore, if_neg he, getScore]
      by_cases he2 : e.1 = q
      · rw [if_pos he2, if_pos he2]
      · rw [if_neg he2, if_neg he2]
        exact ih

theorem getScore_rescoreStep_ne (scr : Scorer) (m : List (List Int × LogProb))
    (p q : List Int) (h : q ≠ p) :
    getScore (rescoreStep scr m p) q = getScore m q := by
  simp only [rescoreStep]
  split
  · exact getScore_setScore_ne m p q _ h
  · split
    · exact getScore_setScore_ne m p q _ h
    · rfl

theorem getScore_rescore_notmem (scr : Scorer) :
    ∀ (ps : List (List Int)) (m : List (List Int × LogProb)) (p : List Int),
    p ∉ ps → getScore (ps.foldl (rescoreStep scr) m) p = getScore m p := by
  intro ps
  induction ps with
  | nil => intro m p _; rfl
  | cons q rest ih =>
    intro m p hp
    have hq : p ≠ q := fun h => hp (h ▸ List.mem_cons_self q rest)
    have hr : p ∉ rest := fun h => hp (List.mem_cons_of_mem q h)
    rw [List.foldl_cons, ih (rescoreStep scr m q) p hr, getScore_rescoreStep_ne scr m q p hq]

theorem getScore_rescore_mem (scr : Scorer) :
    ∀ (ps : List (List Int)) (m : List (List Int × LogProb)) (p : List Int),
    p ∈ ps → ps.Nodup →
    getScore (ps.foldl (rescoreStep scr) m) p
      = (if p.isEmpty then ((OOV_SCORE : ℚ) : LogProb)
         else if scr.is_scoring_boundary p.dropLast (p.getLastD ROOT_) = false then
           getScore m p + ((scr.get_log_cond_prob (scr.make_ngram p)
              (decide ((scr.make_ngram p).length < scr.max_order)) * scr.alpha
              + scr.beta : ℚ) : LogProb)
         else getScore m p) := by
  intro ps
  induction ps with
  | nil => intro m p hp; exact absurd hp (List.not_mem_nil p)
  | cons q rest ih =>
    intro m p hp hnd
    rcases List.nodup_cons.mp hnd with ⟨hqr, hndr⟩
    rcases List.mem_cons.mp hp with rfl | hpr
    · have hnr : p ∉ rest := hqr
      rw [List.foldl_cons, getScore_rescore_notmem scr rest (rescoreStep scr m p) p hnr]
      simp only [rescoreStep]
      split
      · exact getScore_setScore_self m p _
      · split
        · exact getScore_setScore_self m p _
        · rfl
    · have hpq : p ≠ q := fun h => hqr (h ▸ hpr)
      rw [List.foldl_cons, ih (rescoreStep scr m q) p hpr hndr,
        getScore_rescoreStep_ne scr m q p hpq]

theorem getScore_scores0 (root : PathTrie) :
    ∀ (pc : List (List Int)) (p : List Int), p ∈ pc →
    getScore (pc.map (fun q => (q, scoreAt root q))) p = scoreAt root p := by
  intro pc
  induction pc with
  | nil => intro p hp; exact absurd hp (List.not_mem_nil p)
  | cons q rest ih =>
    intro p hp
    by_cases h : q = p
    · simp [getScore, h]
    · have : p ∈ rest := by
        rcases List.mem_cons.mp hp with rfl | hpr
        · exact absurd rfl h
        · exact hpr
      simp [getScore, h, ih p this]

/-- C9: in `DecoderState::decode` with a scorer, the rescoring pass over the
first `min(beam_size, |beam|)` beam prefixes sets an empty prefix's score to
`OOV_SCORE = -1000`, adds `alpha · get_log_cond_prob(make_ngram(prefix),
bos) + beta` (with `bos` iff the ngram is shorter than `max_order`) to the
score of a prefix whose last step is not a scoring boundary, and leaves any
other prefix's score untouched; prefixes beyond that slice, and every prefix
when no scorer is attached, keep exactly their `score` (lines 162-183). -/
theorem decode_rescoring (scr : Scorer) (root : PathTrie) (beam_size : Nat)
    (pc : List (List Int)) (p : List Int) (hnd : pc.Nodup) :
    (p ∈ pc.take beam_size →
      getScore (rescore scr beam_size pc (pc.map (fun q => (q, scoreAt root q)))) p
        = (if p.isEmpty then ((OOV_SCORE : ℚ) : LogProb)
           else if scr.is_scoring_boundary p.dropLast (p.getLastD ROOT_) = false then
             scoreAt root p + ((scr.get_log_cond_prob (scr.make_ngram p)
                (decide ((scr.make_ngram p).length < scr.max_order)) * scr.alpha
                + scr.beta : ℚ) : LogProb)
           else scoreAt root p)) ∧
    (p ∈ pc → p ∉ pc.take beam_size →
      getScore (rescore scr beam_size pc (pc.map (fun q => (q, scoreAt root q)))) p
        = scoreAt root p) ∧
    (p ∈ pc → getScore (pc.map (fun q => (q, scoreAt root q))) p = scoreAt root p) := by
  refine ⟨?_, ?_, fun hp => getScore_scores0 root pc p hp⟩
  · intro hp
    have hmem : p ∈ pc := List.mem_of_mem_take hp
    rw [rescore, getScore_rescore_mem scr (pc.take beam_size) _ p hp (hnd.sublist (List.take_sublist _ _)),
      getScore_scores0 root pc p hmem]
  · intro hp hnp
    rw [rescore, getScore_rescore_notmem scr (pc.take beam_size) _ p hnp,
      getScore_scores0 root pc p hp]

/-- Witness for C9 at a concrete input: the beam `[[], [0]]` of `st0`, whose
second prefix does not end at a scoring boundary. -/
theorem decode_rescoring_witness :
    ([[], [0]] : List (List Int)).Nodup ∧
    (([0] : List Int) ∈ ([[], [0]] : List (List Int)).take 2 →
      getScore (rescore scorer0 2 [[], [0]]
          (([[], [0]] : List (List Int)).map (fun q => (q, scoreAt t0 q)))) [0]
        = (if ([0] : List Int).isEmpty then ((OOV_SCORE : ℚ) : LogProb)
           else if scorer0.is_scoring_boundary ([0] : List Int).dropLast
               (([0] : List Int).getLastD ROOT_) = false then
             scoreAt t0 [0] + ((scorer0.get_log_cond_prob (scorer0.make_ngram [0])
                (decide ((scorer0.make_ngram [0]).length < scorer0.max_order)) * scorer0.alpha
                + scorer0.beta : ℚ) : LogProb)
           else scoreAt t0 [0])) :=
  ⟨by decide, (decode_rescoring scorer0 t0 2 [[], [0]] [0] (by decide)).1⟩

/-! ### Claim C7: timestep monotonicity -/

theorem InvT_elim {T : Nat} {d : NodeData} {cs : List PathTrie}
    (h : InvT T (.mk d cs)) :
    d.timestep ≤ T ∧ (∀ ch ∈ cs, d.timestep ≤ ch.data.timestep) ∧ (∀ ch ∈ cs, InvT T ch) := by
  cases h
  exact ⟨by assumption, by assumption, by assumption⟩

theorem InvT_mono_aux : ∀ (T : Nat) (t : PathTrie), InvT T t →
    ∀ T', T ≤ T' → InvT T' t := by
  intro T t h
  induction h with
  | mk d cs hb he hc ih =>
    intro T' hT
    exact InvT.mk T' d cs (le_trans hb hT) he (fun ch hch => ih ch hch T' hT)

theorem InvT_mono {T T' : Nat} (hT : T ≤ T') {t : PathTrie} (h : InvT T t) :
    InvT T' t := InvT_mono_aux T t h T' hT

theorem updateChild_forall (P : PathTrie → Prop) (c : Int) (f : PathTrie → PathTrie)
    (cs : List PathTrie) (h : ∀ ch ∈ cs, P ch) (hf : ∀ ch ∈ cs, P (f ch)) :
    ∀ x ∈ updateChild c f cs, P x := by
  induction cs with
  | nil => intro x hx; simp [updateChild] at hx
  | cons ch rest ih =>
    intro x hx
    by_cases hc : ch.data.character = c
    · rw [updateChild, if_pos hc] at hx
      rcases List.mem_cons.mp hx with rfl | hxr
      · exact hf ch (List.mem_cons_self ch rest)
      · exact h x (List.mem_cons_of_mem ch hxr)
    · rw [updateChild, if_neg hc] at hx
      rcases List.mem_cons.mp hx with rfl | hxr
      · exact h x (List.mem_cons_self x rest)
      · exact ih (fun y hy => h y (List.mem_cons_of_mem ch hy))
          (fun y hy => hf y (List.mem_cons_of_mem ch hy)) x hxr

theorem updateDataAt_timestep (g : NodeData → NodeData)
    (hg : ∀ d, (g d).timestep = d.timestep) (t : PathTrie) (p : List Int) :
    (updateDataAt t p g).data.timestep = t.data.timestep := by
  rw [updateDataAt_data]
  split
  · exact hg t.data
  · rfl

theorem InvT_updateDataAt (g : NodeData → NodeData)
    (hg : ∀ d, (g d).timestep = d.timestep) :
    ∀ (p : List Int) (T : Nat) (t : PathTrie), InvT T t → InvT T (updateDataAt t p g) := by
  intro p
  induction p with
  | nil =>
    intro T t h
    cases t with
    | mk d cs =>
      rcases InvT_elim h with ⟨hb, he, hc⟩
      rw [updateDataAt]
      exact InvT.mk T (g d) cs (by rw [hg]; exact hb) (by rw [hg]; exact he) hc
  | cons c p' ih =>
    intro T t h
    cases t with
    | mk d cs =>
      rcases InvT_elim h with ⟨hb, he, hc⟩
      rw [updateDataAt]
      refine InvT.mk T d _ hb ?_ ?_
      · intro ch hch
        refine updateChild_forall (fun x => d.timestep ≤ x.data.timestep) c _ cs he
          ?_ ch hch
        intro y hy
        rw [updateDataAt_timestep g hg]
        exact he y hy
      · intro ch hch
        refine updateChild_forall (fun x => InvT T x) c _ cs hc ?_ ch hch
        intro y hy
        exact ih T y (hc y hy)

theorem foundChildUpd_timestep (ts : Nat) (lpc : LogProb) (cd : NodeData)
    (ccs : List PathTrie) :
    (foundChildUpd ts lpc (.mk cd ccs)).data.timestep = cd.timestep ∨
    (cd.log_prob_c < lpc ∧ ccs = [] ∧
      (foundChildUpd ts lpc (.mk cd ccs)).data.timestep = ts) := by
  simp only [foundChildUpd]
  by_cases h1 : cd.log_prob_c < lpc ∧ ccs.isEmpty = true
  · right
    refine ⟨h1.1, List.isEmpty_iff.mp h1.2, ?_⟩
    rw [if_pos h1]
    split <;> rfl
  · left
    rw [if_neg h1]
    split <;> rfl

theorem get_path_trie_timestep (fstm : Fst) (t : PathTrie) (c : Int) (ts : Nat)
    (lpc : LogProb) (rs : Bool) :
    (get_path_trie fstm t c ts lpc rs).1.data.timestep = t.data.timestep := by
  cases t with
  | mk d cs =>
    cases hfc : findChild cs c with
    | some ch => simp [get_path_trie, hfc, PathTrie.data]
    | none =>
      cases hd : d.has_dictionary with
      | false => simp [get_path_trie, hfc, hd, PathTrie.data]
      | true =>
        cases hff : fstm.find d.dictionary_state (c + 1) with
        | none =>
          by_cases hf : fstm.is_final d.dictionary_state ∧ rs = true
          · simp [get_path_trie, hfc, hd, hff, hf, PathTrie.data]
          · simp [get_path_trie, hfc, hd, hff, hf, PathTrie.data]
        | some ns => simp [get_path_trie, hfc, hd, hff, PathTrie.data]

theorem get_path_trie_at_timestep (fstm : Fst) (t : PathTrie) (p : List Int) (c : Int)
    (ts : Nat) (lpc : LogProb) (rs : Bool) :
    (get_path_trie_at fstm t p c ts lpc rs).1.data.timestep = t.data.timestep := by
  cases p with
  | nil => rw [get_path_trie_at_nil]; exact get_path_trie_timestep fstm t c ts lpc rs
  | cons l p' =>
    cases t with
    | mk d cs => rw [get_path_trie_at_cons]; simp [PathTrie.data]

theorem InvT_foundChildUpd (T : Nat) (lpc : LogProb) (ch : PathTrie)
    (h : InvT T ch) : InvT T (foundChildUpd T lpc ch) := by
  cases ch with
  | mk cd ccs =>
    rcases InvT_elim h with ⟨hb, he, hc⟩
    cases hu : foundChildUpd T lpc (.mk cd ccs) with
    | mk cd2 ccs2 =>
      have hdata := foundChildUpd_data T lpc (.mk cd ccs)
      rw [hu] at hdata
      simp only [PathTrie.data, PathTrie.children_] at hdata
      rcases hdata with ⟨_, _, hcc⟩
      subst hcc
      have hts := foundChildUpd_timestep T lpc cd ccs2
      rw [hu] at hts
      simp only [PathTrie.data] at hts
      rcases hts with hts | ⟨_, hnil, hts⟩
      · exact InvT.mk T cd2 ccs2 (by rw [hts]; exact hb) (by rw [hts]; exact he) hc
      · subst hnil
        refine InvT.mk T cd2 [] (by rw [hts]) ?_ ?_
        · intro x hx; exact absurd hx (List.not_mem_nil x)
        · intro x hx; exact absurd hx (List.not_mem_nil x)

theorem InvT_get_path_trie (fstm : Fst) (t : PathTrie) (c : Int) (T : Nat)
    (lpc : LogProb) (rs : Bool) (h : InvT T t) :
    InvT T (get_path_trie fstm t c T lpc rs).1 := by
  cases t with
  | mk d cs =>
    rcases InvT_elim h with ⟨hb, he, hc⟩
    cases hfc : findChild cs c with
    | some ch0 =>
      simp only [get_path_trie, hfc]
      refine InvT.mk T d _ hb ?_ ?_
      · refine updateChild_forall _ c _ cs he ?_
        intro y hy
        cases y with
        | mk cd ccs =>
          rcases foundChildUpd_timestep T lpc cd ccs with h1 | ⟨_, _, h3⟩
          · rw [h1]
            exact he _ hy
          · rw [h3]
            exact hb
      · refine updateChild_forall _ c _ cs hc ?_
        intro y hy
        exact InvT_foundChildUpd T lpc y (hc y hy)
    | none =>
      cases hd : d.has_dictionary with
      | false =>
        simp only [get_path_trie, hfc, hd, Bool.false_eq_true, if_false]
        refine InvT.mk T d _ hb ?_ ?_
        · intro ch hch
          rcases List.mem_append.mp hch with hch | hch
          · exact he ch hch
          · rcases List.mem_singleton.mp hch with rfl
            exact hb
        · intro ch hch
          rcases List.mem_append.mp hch with hch | hch
          · exact hc ch hch
          · rcases List.mem_singleton.mp hch with rfl
            refine InvT.mk T _ [] (le_refl T) ?_ ?_
            · intro x hx; exact absurd hx (List.not_mem_nil x)
            · intro x hx; exact absurd hx (List.not_mem_nil x)
      | true =>
        cases hff : fstm.find d.dictionary_state (c + 1) with
        | none =>
          simp only [get_path_trie, hfc, hd, if_true, hff]
          refine InvT.mk T _ cs ?_ ?_ hc
          · split <;> exact hb
          · split <;> exact he
        | some ns =>
          simp only [get_path_trie, hfc, hd, if_true, hff]
          refine InvT.mk T d _ hb ?_ ?_
          · intro ch hch
            rcases List.mem_append.mp hch with hch | hch
            · exact he ch hch
            · rcases List.mem_singleton.mp hch with rfl
              exact hb
          · intro ch hch
            rcases List.mem_append.mp hch with hch | hch
            · exact hc ch hch
            · rcases List.mem_singleton.mp hch with rfl
              refine InvT.mk T _ [] (le_refl T) ?_ ?_
              · intro x hx; exact absurd hx (List.not_mem_nil x)
              · intro x hx; exact absurd hx (List.not_mem_nil x)

theorem InvT_get_path_trie_at (fstm : Fst) (c : Int) (T : Nat) (lpc : LogProb)
    (rs : Bool) :
    ∀ (p : List Int) (t : PathTrie), InvT T t →
    InvT T (get_path_trie_at fstm t p c T lpc rs).1 := by
  intro p
  induction p with
  | nil =>
    intro t h
    rw [get_path_trie_at_nil]
    exact InvT_get_path_trie fstm t c T lpc rs h
  | cons l p' ih =>
    intro t h
    cases t with
    | mk d cs =>
      rcases InvT_elim h with ⟨hb, he, hc⟩
      rw [get_path_trie_at_cons]
      refine InvT.mk T d _ hb ?_ ?_
      · refine updateChild_forall _ l _ cs he ?_
        intro y hy
        rw [get_path_trie_at_timestep]
        exact he y hy
      · refine updateChild_forall _ l _ cs hc ?_
        intro y hy
        exact ih y (hc y hy)

theorem InvT_extensionStep (env : Env) (T : Nat) (c : Nat) (lpc : LogProb)
    (t : PathTrie) (p : List Int) (h : InvT T t) :
    InvT T (extensionStep env T c lpc t p) := by
  simp only [extensionStep]
  split
  · apply InvT_updateDataAt
    · intro d; rfl
    · exact InvT_get_path_trie_at env.fstm (c : Int) T lpc true p t h
  · exact InvT_get_path_trie_at env.fstm (c : Int) T lpc true p t h

theorem InvT_prefixBody (env : Env) (blank_id : Nat) (T : Nat) (c : Nat) (lpc : LogProb)
    (t : PathTrie) (p : List Int) (h : InvT T t) :
    InvT T (prefixBody env blank_id T c lpc t p) := by
  simp only [prefixBody]
  split
  · apply InvT_updateDataAt
    · intro d; rfl
    · exact h
  · split
    · refine InvT_extensionStep env T c lpc _ p ?_
      apply InvT_updateDataAt
      · intro d; rfl
      · exact h
    · exact InvT_extensionStep env T c lpc t p h

theorem InvT_loopPrefixes (env : Env) (blank_id : Nat) (T : Nat) (c : Nat) (lpc : LogProb)
    (fb : Bool) (mc : LogProb) :
    ∀ (ps : List (List Int)) (t : PathTrie), InvT T t →
    InvT T (loopPrefixes env blank_id T c lpc fb mc t ps) := by
  intro ps
  induction ps with
  | nil => intro t h; exact h
  | cons p rest ih =>
    intro t h
    show InvT T (if fb = true ∧ lpc + scoreAt t p < mc then t
      else loopPrefixes env blank_id T c lpc fb mc (prefixBody env blank_id T c lpc t p) rest)
    split
    · exact h
    · exact ih _ (InvT_prefixBody env blank_id T c lpc t p h)

theorem mapDataL_eq_map (f : NodeData → NodeData) (cs : List PathTrie) :
    mapDataL f cs = cs.map (mapDataT f) := by
  induction cs with
  | nil => rfl
  | cons ch rest ih => simp [mapDataL, ih]

theorem mapDataT_timestep (f : NodeData → NodeData)
    (hf : ∀ d, (f d).timestep = d.timestep) (t : PathTrie) :
    (mapDataT f t).data.timestep = t.data.timestep := by
  rw [mapDataT_data]
  exact hf t.data

theorem InvT_mapDataT (f : NodeData → NodeData)
    (hf : ∀ d, (f d).timestep = d.timestep) :
    ∀ (T : Nat) (t : PathTrie), InvT T t → InvT T (mapDataT f t) := by
  intro T t h
  induction h with
  | mk d cs hb he hc ih =>
    rw [mapDataT]
    refine InvT.mk T (f d) _ (by rw [hf]; exact hb) ?_ ?_
    · intro ch hch
      rw [mapDataL_eq_map] at hch
      rcases List.mem_map.mp hch with ⟨y, hy, rfl⟩
      rw [hf, mapDataT_timestep f hf]
      exact he y hy
    · intro ch hch
      rw [mapDataL_eq_map] at hch
      rcases List.mem_map.mp hch with ⟨y, hy, rfl⟩
      exact ih y hy

theorem InvT_iterate_to_vec (lse : LogProb → LogProb → LogProb) (T : Nat)
    (t : PathTrie) (pre : List Int) (h : InvT T t) :
    InvT T (iterate_to_vec lse t pre).1 := by
  rw [iterate_to_vec_fst]
  refine InvT_mapDataT _ ?_ T t h
  intro d
  simp only [commitIfLive, commitData]
  split <;> rfl

theorem remove_at_timestep : ∀ (p : List Int) (t : PathTrie),
    (remove_at t p).data.timestep = t.data.timestep := by
  intro p t
  cases t with
  | mk d cs =>
    cases p with
    | nil => simp [remove_at, PathTrie.data]
    | cons c p' => simp [remove_at, PathTrie.data]

theorem InvT_remove_at : ∀ (p : List Int) (T : Nat) (t : PathTrie),
    InvT T t → InvT T (remove_at t p) := by
  intro p
  induction p with
  | nil =>
    intro T t h
    cases t with
    | mk d cs =>
      rcases InvT_elim h with ⟨hb, he, hc⟩
      rw [remove_at]
      exact InvT.mk T _ cs hb he hc
  | cons c p' ih =>
    intro T t h
    cases t with
    | mk d cs =>
      rcases InvT_elim h with ⟨hb, he, hc⟩
      rw [remove_at]
      have haux : ∀ (cs' : List PathTrie),
          (∀ ch ∈ cs', d.timestep ≤ ch.data.timestep) →
          (∀ ch ∈ cs', InvT T ch) →
          (∀ x ∈ removeIn cs' c p',
            d.timestep ≤ x.data.timestep ∧ InvT T x) := by
        intro cs'
        induction cs' with
        | nil => intro _ _ x hx; simp [removeIn] at hx
        | cons ch rest ihr =>
          intro he' hc' x hx
          by_cases hcc : ch.data.character = c
          · rw [removeIn, if_pos hcc] at hx
            split at hx
            · exact ⟨he' x (List.mem_cons_of_mem ch hx),
                hc' x (List.mem_cons_of_mem ch hx)⟩
            · rcases List.mem_cons.mp hx with rfl | hxr
              · constructor
                · rw [remove_at_timestep]
                  exact he' ch (List.mem_cons_self ch rest)
                · exact ih T ch (hc' ch (List.mem_cons_self ch rest))
              · exact ⟨he' x (List.mem_cons_of_mem ch hxr),
                  hc' x (List.mem_cons_of_mem ch hxr)⟩
          · rw [removeIn, if_neg hcc] at hx
            rcases List.mem_cons.mp hx with rfl | hxr
            · exact ⟨he' x (List.mem_cons_self x rest),
                hc' x (List.mem_cons_self x rest)⟩
            · exact ihr (fun y hy => he' y (List.mem_cons_of_mem ch hy))
                (fun y hy => hc' y (List.mem_cons_of_mem ch hy)) x hxr
      refine InvT.mk T d _ hb ?_ ?_
      · intro x hx; exact (haux cs he hc x hx).1
      · intro x hx; exact (haux cs he hc x hx).2

theorem InvT_frameLoops (env : Env) (s : DecoderState) (fi : FrameInput)
    (h : InvT s.abs_time_step s.prefix_root) :
    InvT s.abs_time_step (frameLoops env s fi) := by
  rw [frameLoops]
  have haux : ∀ (ls : List (Nat × LogProb)) (t : PathTrie), InvT s.abs_time_step t →
      InvT s.abs_time_step (ls.foldl
        (fun t cl => loopPrefixes env s.blank_id s.abs_time_step cl.1 cl.2
          (full_beam_val env s) (min_cutoff_val env s fi) t
          ((sorted_prefixes env s).take s.beam_size)) t) := by
    intro ls
    induction ls with
    | nil => intro t ht; exact ht
    | cons cl rest ihl =>
      intro t ht
      exact ihl _ (InvT_loopPrefixes env s.blank_id s.abs_time_step cl.1 cl.2 _ _ _ t ht)
  exact haux fi.pruned s.prefix_root h

theorem InvT_frameStep (env : Env) (s : DecoderState) (fi : FrameInput)
    (h : InvT s.abs_time_step s.prefix_root) :
    InvT (frameStep env s fi).abs_time_step (frameStep env s fi).prefix_root := by
  have habs : (frameStep env s fi).abs_time_step = s.abs_time_step + 1 := rfl
  rw [habs, (frameStep_prefixes_spec env s fi).2]
  have h1 : InvT s.abs_time_step (iterate_to_vec env.lse (frameLoops env s fi) []).1 :=
    InvT_iterate_to_vec env.lse s.abs_time_step _ [] (InvT_frameLoops env s fi h)
  refine InvT_mono (Nat.le_succ s.abs_time_step) ?_
  split
  · have haux : ∀ (qs : List (List Int)) (t : PathTrie), InvT s.abs_time_step t →
        InvT s.abs_time_step (qs.foldl remove_at t) := by
      intro qs
      induction qs with
      | nil => intro t ht; exact ht
      | cons q rest ihq =>
        intro t ht
        exact ihq _ (InvT_remove_at q s.abs_time_step t ht)
    exact haux _ _ h1
  · exact h1

theorem reachable_InvT (env : Env) (s : DecoderState) (h : Reachable env s) :
    InvT s.abs_time_step s.prefix_root := by
  induction h with
  | init blank_id space_id beam_size =>
    refine InvT.mk 0 _ [] (le_refl 0) ?_ ?_
    · intro x hx; exact absurd hx (List.not_mem_nil x)
    · intro x hx; exact absurd hx (List.not_mem_nil x)
  | step s fi _ ih => exact InvT_frameStep env s fi ih

theorem findChild_mem (cs : List PathTrie) (c : Int) (ch : PathTrie)
    (h : findChild cs c = some ch) : ch ∈ cs := by
  induction cs with
  | nil => simp [findChild] at h
  | cons x rest ih =>
    by_cases hx : x.data.character = c
    · rw [findChild, if_pos hx] at h
      have hxc : x = ch := Option.some.inj h
      rw [← hxc]
      exact List.mem_cons_self x rest
    · rw [findChild, if_neg hx] at h
      exact List.mem_cons_of_mem x (ih h)

theorem pathNodes_ge {T : Nat} :
    ∀ (p : List Int) (t : PathTrie), InvT T t →
    ∀ x ∈ pathNodes t p, t.data.timestep ≤ x.timestep := by
  intro p
  induction p with
  | nil =>
    intro t h x hx
    cases t with
    | mk d cs =>
      rw [pathNodes] at hx
      rcases List.mem_singleton.mp hx with rfl
      exact le_refl _
  | cons c p' ih =>
    intro t h x hx
    cases t with
    | mk d cs =>
      rcases InvT_elim h with ⟨hb, he, hc⟩
      rw [pathNodes] at hx
      rcases List.mem_cons.mp hx with rfl | hxr
      · exact le_refl _
      · cases hfc : findChild cs c with
        | none => rw [hfc] at hxr; simp at hxr
        | some ch =>
          rw [hfc] at hxr
          have hch := findChild_mem cs c ch hfc
          exact le_trans (he ch hch) (ih ch (hc ch hch) x hxr)

theorem pairwise_pathNodes {T : Nat} :
    ∀ (p : List Int) (t : PathTrie), InvT T t →
    (pathNodes t p).Pairwise (fun a b => a.timestep ≤ b.timestep) := by
  intro p
  induction p with
  | nil =>
    intro t h
    cases t with
    | mk d cs => rw [pathNodes]; exact List.pairwise_singleton _ _
  | cons c p' ih =>
    intro t h
    cases t with
    | mk d cs =>
      rcases InvT_elim h with ⟨hb, he, hc⟩
      rw [pathNodes]
      refine List.pairwise_cons.mpr ⟨?_, ?_⟩
      · intro y hy
        cases hfc : findChild cs c with
        | none => rw [hfc] at hy; simp at hy
        | some ch =>
          rw [hfc] at hy
          have hch := findChild_mem cs c ch hfc
          exact le_trans (he ch hch) (pathNodes_ge p' ch (hc ch hch) y hy)
      · cases hfc : findChild cs c with
        | none => exact List.Pairwise.nil
        | some ch => exact ih ch (hc ch (findChild_mem cs c ch hfc))

/-- C7: in every reachable decoder state the trie satisfies the timestep
invariant (every node's `timestep` is bounded by the frame counter and no
node's `timestep` exceeds a child's, so each descendant's `timestep` is at
least every ancestor's); a node's `timestep` is mutated after creation only
by the leaf update inside `get_path_trie`, which fires only when the new
`log_prob_c` is strictly larger and the node has no children; and
`get_path_vec` emits token and timestep lists of equal length with the
timesteps non-decreasing, for every path of the trie. -/
theorem timestep_monotone (env : Env) (s : DecoderState) (h : Reachable env s) :
    InvT s.abs_time_step s.prefix_root ∧
    (∀ (ts : Nat) (lpc : LogProb) (cd : NodeData) (ccs : List PathTrie),
      (foundChildUpd ts lpc (.mk cd ccs)).data.timestep = cd.timestep ∨
      (cd.log_prob_c < lpc ∧ ccs = [] ∧
        (foundChildUpd ts lpc (.mk cd ccs)).data.timestep = ts)) ∧
    (∀ p : List Int,
      (get_path_vec s.prefix_root p).1.length = (get_path_vec s.prefix_root p).2.length ∧
      ((get_path_vec s.prefix_root p).2).Chain' (· ≤ ·)) := by
  have hinv := reachable_InvT env s h
  refine ⟨hinv, foundChildUpd_timestep, ?_⟩
  intro p
  constructor
  · simp [get_path_vec]
  · have hpw := pairwise_pathNodes p s.prefix_root hinv
    have hfil : ((pathNodes s.prefix_root p).filter
        (fun d => d.character ≠ ROOT_)).Pairwise (fun a b => a.timestep ≤ b.timestep) :=
      hpw.sublist (List.filter_sublist _)
    have hmap : (((pathNodes s.prefix_root p).filter
        (fun d => d.character ≠ ROOT_)).map (·.timestep)).Pairwise (· ≤ ·) :=
      List.pairwise_map.mpr hfil
    exact hmap.chain'

/-- Witness for C7 at the freshly initialised decoder state. -/
theorem timestep_monotone_witness :
    InvT (DecoderState.init env0 2 1 2).abs_time_step
      (DecoderState.init env0 2 1 2).prefix_root ∧
    (∀ (ts : Nat) (lpc : LogProb) (cd : NodeData) (ccs : List PathTrie),
      (foundChildUpd ts lpc (.mk cd ccs)).data.timestep = cd.timestep ∨
      (cd.log_prob_c < lpc ∧ ccs = [] ∧
        (foundChildUpd ts lpc (.mk cd ccs)).data.timestep = ts)) ∧
    (∀ p : List Int,
      (get_path_vec (DecoderState.init env0 2 1 2).prefix_root p).1.length
        = (get_path_vec (DecoderState.init env0 2 1 2).prefix_root p).2.length ∧
      ((get_path_vec (DecoderState.init env0 2 1 2).prefix_root p).2).Chain' (· ≤ ·)) :=
  timestep_monotone env0 (DecoderState.init env0 2 1 2) (Reachable.init 2 1 2)
